import Mathlib

/-
Shallow embedding of the listing search engine of the OnlineStoreBackend
repository (src/app/functions/search.py, src/app/functions/utils.py,
src/app/constants.py, src/app/routes/listings.py).

Modelling conventions:
  Python strings are lists of characters (Word), Python dicts are
  insertion-ordered association lists, defaultdict reads are lookups with a
  default, listing ids and category names are opaque and modelled as naturals,
  and float arithmetic is exact real (or rational) arithmetic with math.log
  modelled as Real.log.  The background indexing thread is modelled as a
  sequential sequence of load cycles (loadBatch), one per batch returned by
  the database poll.
-/

/-- A Python string, modelled as a list of characters. -/
abbrev Word := List Char

/-- Builds a Word from a string literal. -/
def wd (s : String) : Word := s.toList

abbrev ListingID := Nat

abbrev Category := Nat

abbrev SubCategory := Nat

section AssocList

variable {α β : Type} [DecidableEq α]

/-- Lookup in an insertion-ordered association list: Python dict.get(k, None). -/
def aget : List (α × β) → α → Option β
  | [], _ => none
  | (k', v) :: rest, k => if k' = k then some v else aget rest k

/-- Lookup with a default: Python dict.get(k, d), and reads of a defaultdict
    (whose entry-creating side effect is unobservable in the results and is
    therefore dropped). -/
def algetD (m : List (α × β)) (k : α) (d : β) : β := (aget m k).getD d

/-- Replace the value at a key in place, or append the key at the end of the
    list: the insertion-order semantics of writing through a Python dict or
    defaultdict with default value d. -/
def amod : List (α × β) → α → (β → β) → β → List (α × β)
  | [], k, f, d => [(k, f d)]
  | (k', v) :: rest, k, f, d =>
      if k' = k then (k', f v) :: rest else (k', v) :: amod rest k f d

/-- Python dict assignment m[k] = v. -/
def aset (m : List (α × β)) (k : α) (v : β) : List (α × β) :=
  amod m k (fun _ => v) v

/-- Python dict.pop(k) (only ever called on a present key in the source). -/
def apop : List (α × β) → α → List (α × β)
  | [], _ => []
  | (k', v) :: rest, k => if k' = k then rest else (k', v) :: apop rest k

/-- Occurrence count of an element in a list (self-contained to keep one
    decidable-equality discipline throughout the development). -/
def kcount : List α → α → Nat
  | [], _ => 0
  | y :: rest, x => (if y = x then 1 else 0) + kcount rest x

end AssocList

/-- Python str.split(sep) with a one-character separator: keeps the empty
    chunks between adjacent separators, and the empty string yields one empty
    chunk. -/
def splitChar (c : Char) : Word → List Word
  | [] => [[]]
  | x :: xs =>
    let r := splitChar c xs
    if x = c then [] :: r else (x :: r.headI) :: r.tail

/-- Python str.lower() on the ASCII text this engine handles. -/
def pyLower (w : Word) : Word := w.map Char.toLower

/-- Python slice term[-n:] for n at least 1: the last n characters, or the
    whole string when n exceeds its length. -/
def pyLast (w : Word) (n : Nat) : Word := w.drop (w.length - n)

/-- Python slice term[:-n] for n at least 1: all but the last n characters,
    empty when n exceeds the length. -/
def pyDropLast (w : Word) (n : Nat) : Word := w.take (w.length - n)

/-- SUFFIXES from src/app/constants.py: word suffixes grouped by length.
    Characters without a plain literal are written with Char.ofNat
    (39 is the apostrophe, 34 the double quote, 123 and 125 the braces). -/
def SUFFIXES : List (Nat × List Word) :=
  [ (1, [['s'], ['y'], ['d'], ['e'], [','], ['+'], ['!'], ['?'], ['.'],
         [':'], [';'], ['-'], ['_'], ['('], [')'], ['['], [']'],
         [Char.ofNat 123], [Char.ofNat 125], [Char.ofNat 39], [Char.ofNat 34]]),
    (2, [['e','s'], ['l','y'], ['e','d'], ['i','c'], ['a','l'], ['e','r'],
         ['o','r'], ['a','r'], ['e','n'], ['e','s']]),
    (3, [['i','n','g'], ['i','l','y'], ['i','o','n'], ['f','u','l'],
         ['i','s','m'], ['o','u','s'], ['i','f','y'], ['i','z','e'],
         ['i','s','e'], ['i','s','t'], ['a','t','e'], ['a','n','t'],
         ['e','n','t'], ['p','o','d'], ['i','s','h']]),
    (4, [['a','b','l','e'], ['i','b','l','e'], ['m','e','n','t'],
         ['l','e','s','s'], ['t','i','o','n'], ['n','e','s','s'],
         ['b','o','o','k'], ['s','h','i','p'], ['w','a','r','d'],
         ['w','i','s','e'], ['h','o','o','d'], ['s','o','m','e'],
         ['l','i','k','e'], ['a','n','c','e'], ['e','n','c','e']]),
    (5, [['a','t','i','o','n'], ['i','t','i','o','n'],
         ['l','l','i','n','g']]) ]

/-- Membership in PROCESSED_SUFFIXES (the dict only serves as a lookup set:
    the source checks PROCESSED_SUFFIXES.get(x, None) is not None). -/
def suffixMember (w : Word) : Bool := SUFFIXES.any fun p => decide (w ∈ p.2)

/-- COMMON_TYPO_LETTERS from src/app/constants.py, as a total function that
    returns the empty list for letters absent from the table (96 is the
    backquote character). -/
def COMMON_TYPO_LETTERS (c : Char) : List Char :=
  if c = Char.ofNat 96 then ['q', 'w', 'e', 'z', 'a'] else
  match c with
  | 't' => ['g', 'r', 'y', 'h']
  | 'o' => ['n', 'i', 'p', 'u', 'e']
  | 'a' => ['s', 'q', 'w', 'r', 'o', 'e', 'u']
  | 's' => ['a', 'd', 'z']
  | 'e' => ['w', 'r', 'd', 'o']
  | 'i' => ['o', 'u', 'y', 't', 'e']
  | 'u' => ['i', 'o', 'y', 'a']
  | 'r' => ['t', 'e', 'f']
  | 'n' => ['m', 'h', 'b']
  | 'l' => ['k', 'o', 'i']
  | 'c' => ['x', 'v', 'z', 'f']
  | 'h' => ['g', 'j', 'k', 'e']
  | 'd' => ['s', 'f', 'e']
  | 'y' => ['u', 'i', 'o']
  | 'g' => ['h', 'j', 'f', 't']
  | 'b' => ['n', 'm', 'v', 'h']
  | 'q' => ['w', 'e', 'a']
  | 'k' => ['j', 'l', 'o', 'i']
  | ',' => ['m']
  | ';' => ['l']
  | _ => []

/-- The tokenised-query dict: a term maps to False (here: none) when it is a
    genuine query word, and to the original word (here: some original) when it
    was produced by suffix stripping or typo substitution. -/
abbrev TokDict := List (Word × Option Word)

/-- Truthiness of tokenisedQuery.get(term, None) in Python: False and None are
    falsy, a stored original word (always nonempty in reachable dicts) is
    truthy. -/
def pyTruthy : Option (Option Word) → Bool
  | some (some w) => !w.isEmpty
  | _ => false

/-- First loop of Search.tokeniseQuery: deduplicate the lower-cased
    space-split words, every entry marked False (none). -/
def tokenisePass1 (query : Word) : TokDict :=
  (splitChar ' ' (pyLower query)).foldl
    (fun d w => if pyTruthy (aget d w) then d else aset d w none) []

/-- The reversed(range(1, 6)) loop over candidate suffix lengths: the first
    length whose suffix term[-length:] is in the suffix table. -/
def suffixHitLen (term : Word) : List Nat → Option Nat
  | [] => none
  | n :: rest => if suffixMember (pyLast term n) then some n else suffixHitLen term rest

/-- One iteration of the second loop of Search.tokeniseQuery, processing one
    snapshot term against the dict and the running original-word count:
    hyphen splitting, suffix stripping, then typo-variant generation. -/
def tokeniseStep (typoMitigation : Bool) (acc : TokDict × Nat) (term : Word) :
    TokDict × Nat :=
  let d := acc.1
  let parts := splitChar '-' term
  if parts ≠ [term] then
    (parts.foldl (fun d' w => aset d' w none) (apop d term),
     acc.2 + parts.length - 1)
  else
    let d1 :=
      if 3 < term.length then
        match suffixHitLen term [5, 4, 3, 2, 1] with
        | some n => aset d (pyDropLast term n) (some term)
        | none => d
      else d
    -- not tokenisedQuery.get(term, True): only a stored False value is falsy
    if aget d1 term = some none ∧ typoMitigation then
      (term.enum.foldl (fun d' p =>
        (COMMON_TYPO_LETTERS p.2).foldl
          (fun d'' tl => aset d'' (term.take p.1 ++ tl :: term.drop (p.1 + 1))
            (some term)) d') d1,
       acc.2)
    else (d1, acc.2)

/-- Search.tokeniseQuery: returns the originalWordCount metadata entry and the
    tokenised dict. -/
def tokeniseQuery (query : Word) (typoMitigation : Bool := false) :
    Nat × TokDict :=
  let d0 := tokenisePass1 query
  let r := (d0.map Prod.fst).foldl (tokeniseStep typoMitigation) (d0, d0.length)
  (r.2, r.1)

/-- quickSort from src/app/functions/utils.py: pivot at the middle index,
    partition by key comparison into strictly-smaller, equal and
    strictly-greater sublists, recurse on the outer two; reverse
    concatenates the other way around. -/
def quickSort {α β : Type} [LinearOrder β] (listObj : List α) (key : α → β)
    (reverse : Bool) : List α :=
  if h : listObj.length ≤ 1 then listObj
  else
    let pivot := listObj.get ⟨listObj.length / 2, by omega⟩
    if reverse then
      quickSort (listObj.filter fun x => decide (key pivot < key x)) key reverse
        ++ listObj.filter (fun x => decide (key x = key pivot))
        ++ quickSort (listObj.filter fun x => decide (key x < key pivot)) key reverse
    else
      quickSort (listObj.filter fun x => decide (key x < key pivot)) key reverse
        ++ listObj.filter (fun x => decide (key x = key pivot))
        ++ quickSort (listObj.filter fun x => decide (key pivot < key x)) key reverse
termination_by listObj.length
decreasing_by
  all_goals
    have key : ∀ (p : α → Bool) (l : List α) (x : α), x ∈ l → p x = false →
        (l.filter p).length < l.length := by
      intro p l
      induction l with
      | nil => intro x hx _; cases hx
      | cons a t ih =>
        intro x hx hpx
        rcases List.mem_cons.mp hx with rfl | hxt
        · simp only [List.filter_cons, hpx, List.length_cons]
          exact Nat.lt_succ_of_le (t.length_filter_le p)
        · by_cases hpa : p a = true
          · rw [List.filter_cons, if_pos hpa]
            simp only [List.length_cons]
            exact Nat.succ_lt_succ (ih x hxt hpx)
          · rw [List.filter_cons, if_neg hpa]
            simp only [List.length_cons]
            exact Nat.lt_succ_of_lt (ih x hxt hpx)
    apply key _ _ (listObj.get ⟨listObj.length / 2, by omega⟩) (listObj.get_mem _ _)
    simp

/-- Search.sortScores: sort the (listingID, score) pairs by score,
    descending. -/
noncomputable def sortScores (queryScores : List (ListingID × ℝ)) :
    List (ListingID × ℝ) :=
  quickSort queryScores Prod.snd true

abbrev Postings := List (ListingID × Nat)

abbrev SubIndex := List (SubCategory × Postings)

abbrev CatIndex := List (Category × SubIndex)

abbrev TermIndex := List (Word × CatIndex)

instance decEqSubIndex : DecidableEq SubIndex := inferInstance

instance decEqCatIndex : DecidableEq CatIndex := inferInstance

instance decEqTermIndex : DecidableEq TermIndex := inferInstance

/-- The mutable state of a ListingSearch instance (the documents list and the
    thread pools carry no search semantics and are omitted). -/
structure SearchState where
  invertedTermDocIndex : TermIndex
  categoryIndex : List (Category × List (SubCategory × List ListingID))
  documentCount : Nat
  documentFrequencies : List (Word × Nat)
  averageDocumentLength : ℚ
  corpusLength : Nat
  termFrequencies : List (ListingID × List (Word × Nat))

def initialState : SearchState := ⟨[], [], 0, [], 0, 0, []⟩

/-- Read of the three-level defaultdict index at term, category, subcategory. -/
def idxLookup (idx : TermIndex) (t : Word) (c : Category) (sc : SubCategory) :
    Postings :=
  algetD (algetD (algetD idx t []) c []) sc []

/-- invertedTermDocIndex[term][category][subCategory].append(posting). -/
def idxAppend (idx : TermIndex) (t : Word) (c : Category) (sc : SubCategory)
    (p : ListingID × Nat) : TermIndex :=
  amod idx t (fun ci => amod ci c (fun si => amod si sc (· ++ [p]) []) []) []

/-- The token list a document contributes: the keys of the tokenised title
    followed by the keys of the tokenised description (typo mitigation off,
    as in ListingSearch.processDocument). -/
def docTerms (title description : Word) : List Word :=
  (tokeniseQuery title).2.map Prod.fst ++ (tokeniseQuery description).2.map Prod.fst

/-- The rowTermFrequencies defaultdict(int) accumulation. -/
def rowTermFrequenciesOf (terms : List Word) : List (Word × Nat) :=
  terms.foldl (fun m t => amod m t (· + 1) 0) []

/-- ListingSearch.processDocument. -/
def processDocument (s : SearchState) (description : Word) (id : ListingID)
    (title : Word) (category : Category) (subCategory : SubCategory) :
    SearchState :=
  let terms := docTerms title description
  let rowTF := rowTermFrequenciesOf terms
  let dfIdx := rowTF.foldl
    (fun (p : List (Word × Nat) × TermIndex) e =>
      (amod p.1 e.1 (· + 1) 0, idxAppend p.2 e.1 category subCategory (id, e.2)))
    (s.documentFrequencies, s.invertedTermDocIndex)
  { s with
    corpusLength := s.corpusLength + terms.length,
    documentFrequencies := dfIdx.1,
    invertedTermDocIndex := dfIdx.2,
    categoryIndex :=
      amod s.categoryIndex category (fun si => amod si subCategory (· ++ [id]) []) [],
    termFrequencies := aset s.termFrequencies id rowTF }

/-- One row of the backing-store poll (getListingsSince row order is
    id, title, description, subCategory, category). -/
structure Doc where
  id : ListingID
  title : Word
  description : Word
  subCategory : SubCategory
  category : Category
deriving DecidableEq

/-- The per-row loop body of a load cycle: the processDocument call with the
    row fields in the order the source passes them. -/
def loadStep (st : SearchState) (d : Doc) : SearchState :=
  processDocument st d.description d.id d.title d.category d.subCategory

/-- One polling cycle of ListingSearch.loadTable on one fetched batch: when
    the batch is nonempty, process every row, add the batch size to
    documentCount and recompute averageDocumentLength. -/
def loadBatch (s : SearchState) (batch : List Doc) : SearchState :=
  if batch = [] then s
  else
    let s1 := batch.foldl loadStep s
    let s2 := { s1 with documentCount := s1.documentCount + batch.length }
    { s2 with averageDocumentLength := (s2.corpusLength : ℚ) / (s2.documentCount : ℚ) }

/-- Index states produced by a sequence of load cycles from process start
    (the sequential semantics of the background loader thread). -/
def reachable (s : SearchState) : Prop :=
  ∃ batches : List (List Doc), s = batches.foldl loadBatch initialState

/-- The BM25 constants set in ListingSearch.__init__. -/
def k1 : ℝ := 1.5

def b : ℝ := 0.75

/-- ListingSearch.scoreTerm.  The length-normalisation denominator divides
    documentLength by documentCount, exactly as the source line does; the
    averageDocumentLength field is never read by the source scorer. -/
noncomputable def scoreTerm (s : SearchState) (documentLength : Nat) (term : Word)
    (termFrequencies : Nat) : ℝ :=
  let df : ℝ := (algetD s.documentFrequencies term 0 : Nat)
  let inverseDocumentFrequency :=
    Real.log (((s.documentCount : ℝ) - df + 0.5) / (df + 0.5))
  inverseDocumentFrequency * ((termFrequencies : ℝ) * (k1 + 1)) /
    ((termFrequencies : ℝ) + k1 * (1 - b + b * (documentLength : ℝ) / (s.documentCount : ℝ)))

/-- The scoring formula exactly as the specification states it, kept for
    refinement comparison with scoreTerm: identical except that the length
    normalisation divides documentLength by averageDocumentLength. -/
noncomputable def scoreTermSpec (s : SearchState) (documentLength : Nat) (term : Word)
    (termFrequencies : Nat) : ℝ :=
  let df : ℝ := (algetD s.documentFrequencies term 0 : Nat)
  let idf := Real.log (((s.documentCount : ℝ) - df + 0.5) / (df + 0.5))
  idf * ((termFrequencies : ℝ) * (k1 + 1)) /
    ((termFrequencies : ℝ) + k1 * (1 - b + b * (documentLength : ℝ) / (s.averageDocumentLength : ℝ)))

/-- Union of every posting list in the index, in iteration order. -/
def allIndexedPostings (s : SearchState) : Postings :=
  s.invertedTermDocIndex.flatMap fun te => te.2.flatMap fun ce => ce.2.flatMap Prod.snd

/-- ListingSearch.getIndexedListingsByFilters.  The final branch follows the
    Python test `if not term`, which also catches the empty-string term. -/
def getIndexedListingsByFilters (s : SearchState) (category : Option Category)
    (subCategory : Option SubCategory) (term : Option Word) : Postings :=
  match category with
  | some c =>
    match subCategory with
    | some sc =>
      match term with
      | none =>
        (s.invertedTermDocIndex.map Prod.fst).flatMap fun t =>
          idxLookup s.invertedTermDocIndex t c sc
      | some t => idxLookup s.invertedTermDocIndex t c sc
    | none =>
      match term with
      | none =>
        (s.invertedTermDocIndex.map Prod.fst).flatMap fun t =>
          (algetD (algetD s.invertedTermDocIndex t []) c []).flatMap Prod.snd
      | some t =>
        (algetD (algetD s.invertedTermDocIndex t []) c []).flatMap Prod.snd
  | none =>
    match term with
    | none => allIndexedPostings s
    | some t =>
      if t = [] then allIndexedPostings s
      else (algetD s.invertedTermDocIndex t []).flatMap fun ce => ce.2.flatMap Prod.snd

/-- queryScores[listingID] += x on a defaultdict(float). -/
noncomputable def aincr (m : List (ListingID × ℝ)) (id : ListingID) (x : ℝ) :
    List (ListingID × ℝ) := amod m id (· + x) 0

/-- ListingSearch.queryDocuments._processQueryTerm: skip a term absent from
    the index, otherwise accumulate BM25 scores over the filtered postings;
    the documentLength passed to the scorer is the length of the per-document
    term-frequency dict. -/
noncomputable def processQueryTerm (s : SearchState) (category : Option Category)
    (subCategory : Option SubCategory) (term : Word) : List (ListingID × ℝ) :=
  match aget s.invertedTermDocIndex term with
  | none => []
  | some _ =>
    (getIndexedListingsByFilters s category subCategory (some term)).foldl
      (fun m p =>
        aincr m p.1 (scoreTerm s (algetD s.termFrequencies p.1 []).length term p.2))
      []

/-- The string surgery in returnWithSuggestedQueryIfApplicable: replace the
    query word at the position of the original word by the better-frequency
    term.  (Python list.index raises when the word is absent; List.indexOf
    instead returns the length, a case the source only reaches for queries
    whose lowercasing changed the word.) -/
def buildSuggestedQuery (query orig term : Word) : Word :=
  let ws := splitChar ' ' query
  let i := ws.indexOf orig
  List.intercalate [' '] (ws.take i ++ [term] ++ ws.drop (i + 1))

/-- The scan of ListingSearch.returnWithSuggestedQueryIfApplicable: the first
    indexed typo-variant term whose document frequency beats the original
    word it substitutes yields the suggested query. -/
def suggestedQueryFor (s : SearchState) (query : Word) :
    List Word → TokDict → Option Word
  | [], _ => none
  | t :: rest, typoWords =>
    if algetD s.invertedTermDocIndex t [] = [] then
      suggestedQueryFor s query rest typoWords
    else
      match algetD typoWords t none with
      | some orig =>
        if algetD s.documentFrequencies orig 0 < algetD s.documentFrequencies t 0 then
          some (buildSuggestedQuery query orig t)
        else suggestedQueryFor s query rest typoWords
      | none => suggestedQueryFor s query rest typoWords

/-- ListingSearch.queryDocuments, sequential semantics (the parallel branch
    taken for queries of more than four terms merges the same per-term score
    maps in the same order).  Returns the suggestedQuery metadata and the
    score-sorted (listingID, score) pairs.  The source test `if not listings`
    inspects a generator object, which is always truthy, so that early return
    is dead code and both paths produce the same value. -/
noncomputable def queryDocuments (s : SearchState) (query : Option Word)
    (category : Option Category) (subCategory : Option SubCategory) :
    Option Word × List (ListingID × ℝ) :=
  let tokenised : TokDict :=
    match query with
    | none => []
    | some q => (tokeniseQuery q true).2
  -- the typo-mitigation words: entries whose stored value is truthy
  let typoWords := tokenised.filter fun p => p.2.isSome
  let tokenisedQuery := tokenised.map Prod.fst
  if tokenisedQuery = [] then
    let listings := getIndexedListingsByFilters s category subCategory none
    (none, sortScores (listings.foldl (fun m p => aincr m p.1 1) []))
  else
    let scores := tokenisedQuery.map (processQueryTerm s category subCategory)
    let queryScores :=
      scores.foldl (fun m ts => ts.foldl (fun m' p => aincr m' p.1 p.2) m) []
    (suggestedQueryFor s (match query with | none => [] | some q => q)
        tokenisedQuery typoWords,
     sortScores queryScores)

/-- A hydrated listing, restricted to the fields ListingSearch.sortListings
    reads. -/
structure ListingH where
  id : ListingID
  basePrice : Option Int
  rating : Int
  views : Int
  addedAt : Int
deriving DecidableEq

/-- ListingSearch.sortListings.  The reverse flag compares the order string
    against the three-letter string des, exactly as the source line does;
    currentTime stands for int(time.time()) read in the trending branch. -/
def sortListings (listings : List ListingH) (sort : Option Word)
    (order : Word) (currentTime : Int) : List ListingH :=
  let reverse := decide (order = wd "des")
  let sortKey := sort.map pyLower
  if sortKey = some (wd "price") then
    quickSort listings (fun l => l.basePrice.getD 0) reverse
  else if sortKey = some (wd "rating") then
    quickSort listings (fun l => l.rating) reverse
  else if sortKey = some (wd "views") then
    quickSort listings (fun l => l.views) reverse
  else if sortKey = some (wd "trending") then
    quickSort listings
      (fun l => if 0 < l.views then ((currentTime - l.addedAt : ℚ) / (l.views : ℚ)) else 1)
      reverse
  else listings

/-- A Python slice bound: a negative index counts from the end, both ends
    clamped to the list. -/
def pySliceBound (len : Nat) (i : Int) : Nat :=
  if i < 0 then (i + len).toNat else min i.toNat len

/-- Python slice l[a:bnd]. -/
def pySlice {α : Type} (l : List α) (a bnd : Int) : List α :=
  (l.take (pySliceBound l.length bnd)).drop (pySliceBound l.length a)

/-- The pagination slice listings[offset : offset + limit] at the end of
    ListingSearch.query, applied to the sorted result list. -/
def paginate {α : Type} (listings : List α) (offset limit : Int) : List α :=
  pySlice listings offset (offset + limit)

/-- The request-level handling in routes/listings.py getListings: only a
    limit above 40 is rejected with a 400; offset and limit are otherwise
    passed unchecked into the pagination slice. -/
def getListings {α : Type} (listings : List α) (offset limit : Int) :
    Except String (List α) :=
  if 40 < limit then Except.error "Limit must be less than 40"
  else Except.ok (paginate listings offset limit)

/-- The sequential-loader state invariant: an empty corpus has an empty
    index, document frequencies never exceed the document count, and all
    stored posting frequencies are positive. -/
def SInv (s : SearchState) : Prop :=
  (s.documentCount = 0 → s.invertedTermDocIndex = []) ∧
  (∀ t, algetD s.documentFrequencies t 0 ≤ s.documentCount) ∧
  (∀ t c sc q, q ∈ idxLookup s.invertedTermDocIndex t c sc → 1 ≤ q.2)

def s1C : SearchState :=
  { invertedTermDocIndex := [], categoryIndex := [], documentCount := 3,
    documentFrequencies := [(wd "dog", 1)], averageDocumentLength := 2,
    corpusLength := 6, termFrequencies := [] }

def s3C : SearchState :=
  { invertedTermDocIndex := [], categoryIndex := [], documentCount := 1,
    documentFrequencies := [(wd "dog", 1)], averageDocumentLength := 1,
    corpusLength := 1, termFrequencies := [] }

def sWmono : SearchState :=
  { invertedTermDocIndex := [], categoryIndex := [], documentCount := 3,
    documentFrequencies := [(wd "dog", 1)], averageDocumentLength := 1,
    corpusLength := 3, termFrequencies := [] }

def listingA : ListingH := ⟨1, some 1, 0, 0, 0⟩

def listingB : ListingH := ⟨2, some 2, 0, 0, 0⟩

def docW : Doc := ⟨7, wd "cat", wd "dog", 0, 0⟩

def sC7 : SearchState := loadBatch initialState [docW]

/-- Modelled from the spec data model: the count of the occurrences of a term
    in a document title plus description after tokenisation, counting every
    occurrence among the tokens of the two fields. -/
def specOccurrenceCount (title description : Word) (t : Word) : Nat :=
  ((splitChar ' ' (pyLower title)) ++ (splitChar ' ' (pyLower description))).count t

def sC8 : SearchState := processDocument initialState (wd "") 7 (wd "cat cat") 0 0

def sC2 : SearchState := processDocument initialState (wd "dog") 7 (wd "cat") 0 1

/-- A corpus with the term wiget in one document and widget in fifty. -/
def sC4 : SearchState :=
  (List.range 50).foldl
    (fun st i => processDocument st (wd "widget") (i + 1) (wd "widget") 0 0)
    (processDocument initialState (wd "wiget") 0 (wd "wiget") 0 0)

/-- A corpus with the term wiget in one document and its substitution
    variant witet (g replaced by t, a COMMON_TYPO_LETTERS neighbour) in
    fifty. -/
def sC4b : SearchState :=
  (List.range 50).foldl
    (fun st i => processDocument st (wd "witet") (i + 1) (wd "witet") 0 0)
    (processDocument initialState (wd "wiget") 0 (wd "wiget") 0 0)

/-- Well-formed index: distinct keys at each of the three levels (the Python
    dict invariant that association lists must state explicitly). -/
def WFIndex (s : SearchState) : Prop :=
  (s.invertedTermDocIndex.map Prod.fst).Nodup ∧
  ∀ p ∈ s.invertedTermDocIndex, ((p.2.map Prod.fst).Nodup ∧
    ∀ e ∈ p.2, (e.2.map Prod.fst).Nodup)

instance decWFIndex (s : SearchState) : Decidable (WFIndex s) := by
  unfold WFIndex
  infer_instance

/-- Three documents in three categories; the first one carries the
    empty-string term produced by stripping the five-letter suffix of the
    word ation. -/
def sC5 : SearchState :=
  processDocument (processDocument (processDocument initialState
    (wd "ation") 1 (wd "ation") 0 0) (wd "dog") 2 (wd "dog") 1 0)
    (wd "cat") 3 (wd "cat") 2 0

def sC5w : SearchState :=
  processDocument initialState (wd "dog") 2 (wd "dog") 1 0

example : splitChar ' ' (wd "a  b") = [wd "a", wd "", wd "b"] := by decide

example : splitChar ' ' (wd "") = [wd ""] := by decide

example : (tokeniseQuery (wd "cat cat")).2 = [(wd "cat", none)] := by decide

example : (tokeniseQuery (wd "worked")).2 =
    [(wd "worked", none), (wd "work", some (wd "worked"))] := by decide

example : (tokeniseQuery (wd "worked workeds")).2 =
    [(wd "worked", some (wd "workeds")), (wd "workeds", none),
     (wd "work", some (wd "worked"))] := by decide

example : (tokeniseQuery (wd "ation")).2 =
    [(wd "ation", none), (wd "", some (wd "ation"))] := by decide

example : (tokeniseQuery (wd "hand-tools")).2 =
    [(wd "hand", none), (wd "tools", none)] := by decide

example : (tokeniseQuery (wd "hand-tools")).1 = 2 := by decide

/-- Helper for the quicksort termination argument: filtering drops at least
    one element when some listed element fails the predicate. -/
theorem length_filter_lt_of_mem_not {α : Type} (p : α → Bool) :
    ∀ (l : List α) (x : α), x ∈ l → p x = false → (l.filter p).length < l.length := by
  intro l
  induction l with
  | nil => intro x hx _; cases hx
  | cons a t ih =>
    intro x hx hpx
    rcases List.mem_cons.mp hx with rfl | hxt
    · simp only [List.filter_cons, hpx, List.length_cons]
      exact Nat.lt_succ_of_le (t.length_filter_le p)
    · by_cases hpa : p a = true
      · rw [List.filter_cons, if_pos hpa]
        simp only [List.length_cons]
        exact Nat.succ_lt_succ (ih x hxt hpx)
      · rw [List.filter_cons, if_neg hpa]
        simp only [List.length_cons]
        exact Nat.lt_succ_of_lt (ih x hxt hpx)

section AssocLemmas

variable {α β : Type} [DecidableEq α]

theorem aget_amod_self (m : List (α × β)) (k : α) (f : β → β) (d : β) :
    aget (amod m k f d) k = some (f (algetD m k d)) := by
  induction m with
  | nil => simp [amod, aget, algetD]
  | cons e rest ih =>
    obtain ⟨k', v⟩ := e
    by_cases h : k' = k
    · subst h; simp [amod, aget, algetD]
    · simp [amod, aget, h, ih, algetD]

theorem aget_amod_ne (m : List (α × β)) (k k' : α) (f : β → β) (d : β)
    (h : k' ≠ k) : aget (amod m k f d) k' = aget m k' := by
  induction m with
  | nil =>
    have hne : ¬ k = k' := fun hh => h hh.symm
    simp [amod, aget, hne]
  | cons e rest ih =>
    obtain ⟨ke, v⟩ := e
    by_cases hk : ke = k
    · subst hk
      have hne : ¬ ke = k' := fun hh => h hh.symm
      simp [amod, aget, hne]
    · simp [amod, aget, hk, ih]

theorem aget_aset_self (m : List (α × β)) (k : α) (v : β) :
    aget (aset m k v) k = some v := by
  simp [aset, aget_amod_self]

theorem aget_aset_ne (m : List (α × β)) (k k' : α) (v : β) (h : k' ≠ k) :
    aget (aset m k v) k' = aget m k' := by
  simp [aset, aget_amod_ne _ _ _ _ _ h]

theorem map_fst_amod (m : List (α × β)) (k : α) (f : β → β) (d : β) :
    (amod m k f d).map Prod.fst =
      if k ∈ m.map Prod.fst then m.map Prod.fst else m.map Prod.fst ++ [k] := by
  induction m with
  | nil => simp [amod]
  | cons e rest ih =>
    obtain ⟨ke, v⟩ := e
    by_cases hk : ke = k
    · subst hk; simp [amod]
    · have hk' : ¬ k = ke := fun hh => hk hh.symm
      simp only [amod, if_neg hk, List.map_cons, ih, List.mem_cons, hk',
        false_or]
      by_cases hmem : k ∈ rest.map Prod.fst
      · simp [hmem]
      · simp [hmem]

theorem mem_map_fst_amod (m : List (α × β)) (k : α) (f : β → β) (d : β) (x : α) :
    x ∈ (amod m k f d).map Prod.fst ↔ x ∈ m.map Prod.fst ∨ x = k := by
  rw [map_fst_amod]
  by_cases hmem : k ∈ m.map Prod.fst
  · simp only [if_pos hmem]
    constructor
    · exact Or.inl
    · rintro (h | rfl)
      · exact h
      · exact hmem
  · simp [if_neg hmem]

theorem nodup_map_fst_amod (m : List (α × β)) (k : α) (f : β → β) (d : β)
    (h : (m.map Prod.fst).Nodup) : ((amod m k f d).map Prod.fst).Nodup := by
  rw [map_fst_amod]
  by_cases hmem : k ∈ m.map Prod.fst
  · simpa [hmem] using h
  · simp [hmem, List.nodup_append, h]

theorem aget_eq_some_of_mem (m : List (α × β)) (k : α) (v : β)
    (hnd : (m.map Prod.fst).Nodup) (h : (k, v) ∈ m) : aget m k = some v := by
  induction m with
  | nil => cases h
  | cons e rest ih =>
    obtain ⟨ke, ve⟩ := e
    rcases List.mem_cons.mp h with heq | htail
    · cases heq; simp [aget]
    · have hnd2 : (ke :: rest.map Prod.fst).Nodup := by simpa using hnd
      have hnd' := List.nodup_cons.mp hnd2
      have hk : ke ≠ k := by
        intro hh
        exact hnd'.1 (by rw [hh]; exact List.mem_map_of_mem Prod.fst htail)
      simp [aget, hk, ih hnd'.2 htail]

theorem mem_of_aget_eq_some (m : List (α × β)) (k : α) (v : β)
    (h : aget m k = some v) : (k, v) ∈ m := by
  induction m with
  | nil => cases h
  | cons e rest ih =>
    obtain ⟨ke, ve⟩ := e
    by_cases hk : ke = k
    · subst hk
      simp [aget] at h
      subst h
      exact List.mem_cons_self _ _
    · simp [aget, hk] at h
      exact List.mem_cons_of_mem _ (ih h)

theorem aget_eq_none_iff (m : List (α × β)) (k : α) :
    aget m k = none ↔ k ∉ m.map Prod.fst := by
  induction m with
  | nil => simp [aget]
  | cons e rest ih =>
    obtain ⟨ke, ve⟩ := e
    by_cases hk : ke = k
    · subst hk; simp [aget]
    · have hk' : ¬ k = ke := fun hh => hk hh.symm
      simp [aget, hk, hk', ih]

/-- Keys of an amod-shaped accumulating fold: an id appears exactly when it
    was already present or is one of the folded keys. -/
theorem mem_map_fst_foldl_amod {γ : Type} (keyf : γ → α) (ff : γ → β → β)
    (df : γ → β) :
    ∀ (L : List γ) (m : List (α × β)) (x : α),
      (x ∈ (L.foldl (fun acc e => amod acc (keyf e) (ff e) (df e)) m).map Prod.fst)
        ↔ x ∈ m.map Prod.fst ∨ x ∈ L.map keyf := by
  intro L
  induction L with
  | nil => simp
  | cons e rest ih =>
    intro m x
    simp only [List.foldl_cons, ih, mem_map_fst_amod, List.map_cons,
      List.mem_cons]
    tauto

theorem nodup_map_fst_foldl_amod {γ : Type} (keyf : γ → α) (ff : γ → β → β)
    (df : γ → β) :
    ∀ (L : List γ) (m : List (α × β)), (m.map Prod.fst).Nodup →
      ((L.foldl (fun acc e => amod acc (keyf e) (ff e) (df e)) m).map Prod.fst).Nodup := by
  intro L
  induction L with
  | nil => intro m h; exact h
  | cons e rest ih =>
    intro m h
    exact ih _ (nodup_map_fst_amod _ _ _ _ h)

/-- Value of a counting fold over naturals (the rowTermFrequencies and
    documentFrequencies accumulations). -/
theorem algetD_count_fold_nat {γ : Type} (keyf : γ → α) :
    ∀ (L : List γ) (m : List (α × Nat)) (x : α),
      algetD (L.foldl (fun acc e => amod acc (keyf e) (· + 1) 0) m) x 0
        = algetD m x 0 + kcount (L.map keyf) x := by
  intro L
  induction L with
  | nil => simp [kcount]
  | cons e rest ih =>
    intro m x
    simp only [List.foldl_cons, ih, List.map_cons, kcount]
    by_cases hx : x = keyf e
    · subst hx
      simp [algetD, aget_amod_self, Nat.add_comm, Nat.add_assoc, Nat.add_left_comm]
    · have hx2 : ¬ keyf e = x := fun hh => hx hh.symm
      simp [algetD, aget_amod_ne _ _ _ _ _ hx, hx2]

/-- Value of a constant-one real accumulation (the unranked filter-only
    scoring loop). -/
theorem algetD_count_fold_real {γ : Type} (keyf : γ → α) :
    ∀ (L : List γ) (m : List (α × ℝ)) (x : α),
      algetD (L.foldl (fun acc e => amod acc (keyf e) (· + 1) 0) m) x 0
        = algetD m x 0 + (kcount (L.map keyf) x : ℝ) := by
  intro L
  induction L with
  | nil => simp [kcount]
  | cons e rest ih =>
    intro m x
    simp only [List.foldl_cons, ih, List.map_cons, kcount]
    by_cases hx : x = keyf e
    · subst hx
      simp [algetD, aget_amod_self]
      try ring
    · have hx2 : ¬ keyf e = x := fun hh => hx hh.symm
      simp [algetD, aget_amod_ne _ _ _ _ _ hx, hx2]

end AssocLemmas

/-- Reading the three-level index after one posting append. -/
theorem idxLookup_idxAppend (idx : TermIndex) (t0 : Word) (c0 : Category)
    (sc0 : SubCategory) (p : ListingID × Nat) (t : Word) (c : Category)
    (sc : SubCategory) :
    idxLookup (idxAppend idx t0 c0 sc0 p) t c sc =
      idxLookup idx t c sc ++ (if t = t0 ∧ c = c0 ∧ sc = sc0 then [p] else []) := by
  unfold idxLookup idxAppend
  by_cases ht : t = t0
  · subst ht
    simp only [algetD, aget_amod_self, Option.getD_some]
    by_cases hc : c = c0
    · subst hc
      simp only [aget_amod_self, Option.getD_some]
      by_cases hsc : sc = sc0
      · subst hsc
        simp [aget_amod_self, algetD]
      · simp [aget_amod_ne _ _ _ _ _ hsc, hsc, algetD]
    · simp [aget_amod_ne _ _ _ _ _ hc, hc, algetD]
  · simp [algetD, aget_amod_ne _ _ _ _ _ ht, ht]

/-- Three mutually exclusive, jointly exhaustive filters partition a list up
    to permutation. -/
theorem filter_three_perm {α : Type} (f g h3 : α → Bool)
    (hx : ∀ x, (f x = true ∧ g x = false ∧ h3 x = false) ∨
      (f x = false ∧ g x = true ∧ h3 x = false) ∨
      (f x = false ∧ g x = false ∧ h3 x = true)) :
    ∀ l : List α, (l.filter f ++ l.filter g ++ l.filter h3).Perm l := by
  intro l
  induction l with
  | nil => simp
  | cons a t ih =>
    rcases hx a with ⟨h1, h2, h3'⟩ | ⟨h1, h2, h3'⟩ | ⟨h1, h2, h3'⟩
    · rw [List.filter_cons, List.filter_cons, List.filter_cons, h1, h2, h3']
      simp only [if_true, if_false, Bool.false_eq_true, List.cons_append]
      exact ih.cons a
    · rw [List.filter_cons, List.filter_cons, List.filter_cons, h1, h2, h3']
      simp only [if_true, if_false, Bool.false_eq_true]
      have hshape : t.filter f ++ (a :: t.filter g) ++ t.filter h3
          = t.filter f ++ a :: (t.filter g ++ t.filter h3) := by simp
      rw [hshape]
      refine List.Perm.trans List.perm_middle ?_
      refine List.Perm.cons a ?_
      rw [← List.append_assoc]
      exact ih
    · rw [List.filter_cons, List.filter_cons, List.filter_cons, h1, h2, h3']
      simp only [if_true, if_false, Bool.false_eq_true]
      refine List.Perm.trans List.perm_middle ?_
      exact List.Perm.cons a ih

/-- The key comparisons used by quickSort are mutually exclusive and
    exhaustive. -/
theorem quickSort_trichotomy {α β : Type} [LinearOrder β] (key : α → β) (piv : α)
    (x : α) :
    ((decide (key x < key piv)) = true ∧ (decide (key x = key piv)) = false ∧
      (decide (key piv < key x)) = false) ∨
    ((decide (key x < key piv)) = false ∧ (decide (key x = key piv)) = true ∧
      (decide (key piv < key x)) = false) ∨
    ((decide (key x < key piv)) = false ∧ (decide (key x = key piv)) = false ∧
      (decide (key piv < key x)) = true) := by
  rcases lt_trichotomy (key x) (key piv) with h | h | h
  · exact Or.inl (by simp [h, ne_of_lt h, not_lt_of_lt h, asymm h])
  · exact Or.inr (Or.inl (by simp [h]))
  · exact Or.inr (Or.inr (by simp [h, (ne_of_lt h).symm, asymm h, not_lt_of_lt h]))

/-- quickSort returns a permutation of its input. -/
theorem quickSort_perm {α β : Type} [LinearOrder β] (key : α → β) (rev : Bool) :
    ∀ (n : Nat) (l : List α), l.length ≤ n → (quickSort l key rev).Perm l := by
  intro n
  induction n with
  | zero =>
    intro l hl
    have : l = [] := List.eq_nil_of_length_eq_zero (Nat.le_zero.mp hl)
    subst this
    simp [quickSort]
  | succ n ih =>
    intro l hl
    by_cases hlen : l.length ≤ 1
    · rw [quickSort]
      simp [hlen]
    · have hpiv : l.length / 2 < l.length := by omega
      set piv := l.get ⟨l.length / 2, hpiv⟩ with hpivdef
      have hmem : piv ∈ l := l.get_mem _ _
      have hleft : (l.filter fun x => decide (key x < key piv)).length < l.length :=
        length_filter_lt_of_mem_not _ l piv hmem (by simp)
      have hright : (l.filter fun x => decide (key piv < key x)).length < l.length :=
        length_filter_lt_of_mem_not _ l piv hmem (by simp)
      have hL := ih (l.filter fun x => decide (key x < key piv)) (by omega)
      have hR := ih (l.filter fun x => decide (key piv < key x)) (by omega)
      have hpart := filter_three_perm _ _ _ (quickSort_trichotomy key piv) l
      have hpart' := filter_three_perm _ _ _
        (fun x => by
          rcases quickSort_trichotomy key piv x with h | h | h
          · exact Or.inr (Or.inr ⟨h.2.2, h.2.1, h.1⟩)
          · exact Or.inr (Or.inl ⟨h.2.2, h.2.1, h.1⟩)
          · exact Or.inl ⟨h.2.2, h.2.1, h.1⟩) l
      rw [quickSort]
      rw [dif_neg hlen]
      cases rev with
      | true =>
        simp only [if_true]
        exact ((hR.append (List.Perm.refl _)).append hL).trans hpart'
      | false =>
        simp only [if_false]
        exact ((hL.append (List.Perm.refl _)).append hR).trans hpart

example : quickSort [3, 1, 2] (fun x : Nat => x) false = [1, 2, 3] := by
  simp [quickSort]

example : quickSort [(1, 5), (2, 7)] (fun p : Nat × Nat => p.2) true = [(2, 7), (1, 5)] := by
  simp [quickSort]

/-- Membership of a pair survives the final score sort. -/
theorem mem_sortScores (m : List (ListingID × ℝ)) (p : ListingID × ℝ) :
    p ∈ sortScores m ↔ p ∈ m :=
  (quickSort_perm Prod.snd true m.length m le_rfl).mem_iff

/-- Membership of a listing id among the sorted score pairs. -/
theorem mem_map_fst_sortScores (m : List (ListingID × ℝ)) (x : ListingID) :
    x ∈ (sortScores m).map Prod.fst ↔ x ∈ m.map Prod.fst :=
  ((quickSort_perm Prod.snd true m.length m le_rfl).map Prod.fst).mem_iff

/-- A fold that builds a pair componentwise is the pair of the component
    folds. -/
theorem foldl_pair_split {γ δ ε : Type} (f : δ → γ → δ) (g : ε → γ → ε) :
    ∀ (L : List γ) (a : δ) (e0 : ε),
      L.foldl (fun p e => (f p.1 e, g p.2 e)) (a, e0) = (L.foldl f a, L.foldl g e0) := by
  intro L
  induction L with
  | nil => intro a e0; rfl
  | cons x rest ih => intro a e0; simp [ih]

/-- The paired documentFrequencies and index fold of processDocument splits
    into its two component folds. -/
theorem dfIdx_fold_split (c : Category) (sc : SubCategory) (id : ListingID) :
    ∀ (es : List (Word × Nat)) (dfs : List (Word × Nat)) (idx : TermIndex),
      es.foldl (fun (p : List (Word × Nat) × TermIndex) e =>
          (amod p.1 e.1 (· + 1) 0, idxAppend p.2 e.1 c sc (id, e.2))) (dfs, idx)
        = (es.foldl (fun m e => amod m e.1 (· + 1) 0) dfs,
           es.foldl (fun ix e => idxAppend ix e.1 c sc (id, e.2)) idx) := by
  intro es
  induction es with
  | nil => intro dfs idx; rfl
  | cons e rest ih => intro dfs idx; simp [ih]

theorem processDocument_documentFrequencies (s : SearchState) (description : Word)
    (id : ListingID) (title : Word) (c : Category) (sc : SubCategory) :
    (processDocument s description id title c sc).documentFrequencies
      = (rowTermFrequenciesOf (docTerms title description)).foldl
          (fun m e => amod m e.1 (· + 1) 0) s.documentFrequencies := by
  simp [processDocument, dfIdx_fold_split]

theorem processDocument_invertedTermDocIndex (s : SearchState) (description : Word)
    (id : ListingID) (title : Word) (c : Category) (sc : SubCategory) :
    (processDocument s description id title c sc).invertedTermDocIndex
      = (rowTermFrequenciesOf (docTerms title description)).foldl
          (fun idx e => idxAppend idx e.1 c sc (id, e.2)) s.invertedTermDocIndex := by
  simp [processDocument, dfIdx_fold_split]

theorem processDocument_documentCount (s : SearchState) (description : Word)
    (id : ListingID) (title : Word) (c : Category) (sc : SubCategory) :
    (processDocument s description id title c sc).documentCount = s.documentCount := by
  simp [processDocument]

/-- A posting found after a batch of appends either was already there or was
    appended from one of the folded entries, under the same category and
    subcategory. -/
theorem idxLookup_fold_idxAppend_sub (c0 : Category) (sc0 : SubCategory)
    (id : ListingID) :
    ∀ (es : List (Word × Nat)) (idx0 : TermIndex) (t : Word) (c : Category)
      (sc : SubCategory) (q : ListingID × Nat),
      q ∈ idxLookup (es.foldl (fun idx e => idxAppend idx e.1 c0 sc0 (id, e.2)) idx0) t c sc →
      q ∈ idxLookup idx0 t c sc ∨
        (∃ v, (t, v) ∈ es ∧ q = (id, v) ∧ c = c0 ∧ sc = sc0) := by
  intro es
  induction es with
  | nil => intro idx0 t c sc q hq; exact Or.inl hq
  | cons e rest ih =>
    intro idx0 t c sc q hq
    rcases ih _ _ _ _ _ hq with hin | ⟨v, hv, rfl, rfl, rfl⟩
    · rw [idxLookup_idxAppend] at hin
      rcases List.mem_append.mp hin with h | h
      · exact Or.inl h
      · by_cases hcase : t = e.1 ∧ c = c0 ∧ sc = sc0
        · simp only [if_pos hcase, List.mem_singleton] at h
          obtain ⟨ht, hc, hsc⟩ := hcase
          exact Or.inr ⟨e.2, by rw [ht]; exact List.mem_cons_self _ _, h, hc, hsc⟩
        · simp [if_neg hcase] at h
    · exact Or.inr ⟨v, List.mem_cons_of_mem _ hv, rfl, rfl, rfl⟩

/-- Postings of a term untouched by a batch of appends. -/
theorem idxLookup_fold_idxAppend_not_mem (c0 : Category) (sc0 : SubCategory)
    (id : ListingID) :
    ∀ (es : List (Word × Nat)) (idx0 : TermIndex) (t : Word) (c : Category)
      (sc : SubCategory), t ∉ es.map Prod.fst →
      idxLookup (es.foldl (fun idx e => idxAppend idx e.1 c0 sc0 (id, e.2)) idx0) t c sc
        = idxLookup idx0 t c sc := by
  intro es
  induction es with
  | nil => intro idx0 t c sc _; rfl
  | cons e rest ih =>
    intro idx0 t c sc ht
    simp only [List.map_cons, List.mem_cons, not_or] at ht
    rw [List.foldl_cons, ih _ _ _ _ ht.2, idxLookup_idxAppend,
      if_neg (fun hh => ht.1 hh.1), List.append_nil]

/-- The posting appended for a folded term, when the folded keys are
    distinct. -/
theorem idxLookup_fold_idxAppend_mem (c0 : Category) (sc0 : SubCategory)
    (id : ListingID) :
    ∀ (es : List (Word × Nat)) (idx0 : TermIndex) (t : Word) (v : Nat),
      (es.map Prod.fst).Nodup → (t, v) ∈ es →
      idxLookup (es.foldl (fun idx e => idxAppend idx e.1 c0 sc0 (id, e.2)) idx0) t c0 sc0
        = idxLookup idx0 t c0 sc0 ++ [(id, v)] := by
  intro es
  induction es with
  | nil => intro idx0 t v _ hv; cases hv
  | cons e rest ih =>
    intro idx0 t v hnd hv
    have hnd' : e.1 ∉ rest.map Prod.fst ∧ (rest.map Prod.fst).Nodup := by
      rw [List.map_cons, List.nodup_cons] at hnd
      exact hnd
    rcases List.mem_cons.mp hv with heq | htail
    · cases heq
      have hnot : t ∉ rest.map Prod.fst := hnd'.1
      rw [List.foldl_cons, idxLookup_fold_idxAppend_not_mem _ _ _ _ _ _ _ _ hnot,
        idxLookup_idxAppend, if_pos ⟨rfl, rfl, rfl⟩]
    · have ht : t ≠ e.1 := by
        intro hh
        exact hnd'.1 (hh ▸ List.mem_map_of_mem Prod.fst htail)
      rw [List.foldl_cons, ih _ _ _ hnd'.2 htail, idxLookup_idxAppend,
        if_neg (fun hh => ht hh.1), List.append_nil]

/-- One increment step keeps every stored frequency positive. -/
theorem mem_amod_incr_pos {α : Type} [DecidableEq α] :
    ∀ (m : List (α × Nat)) (k : α), (∀ e ∈ m, 1 ≤ e.2) →
      ∀ e ∈ amod m k (· + 1) 0, 1 ≤ e.2 := by
  intro m
  induction m with
  | nil =>
    intro k _ e he
    simp [amod] at he
    simp [he]
  | cons x rest ih =>
    obtain ⟨kx, vx⟩ := x
    intro k hm e he
    by_cases hk : kx = k
    · subst hk
      simp only [amod, if_pos rfl] at he
      rcases List.mem_cons.mp he with rfl | htail
      · simp
      · exact hm _ (List.mem_cons_of_mem _ htail)
    · simp only [amod, if_neg hk] at he
      rcases List.mem_cons.mp he with rfl | htail
      · exact hm _ (List.mem_cons_self _ _)
      · exact ih k (fun e' he' => hm _ (List.mem_cons_of_mem _ he')) _ htail

/-- Every frequency stored by the rowTermFrequencies accumulation is
    positive. -/
theorem rowTF_values_pos :
    ∀ (terms : List Word) (m : List (Word × Nat)), (∀ e ∈ m, 1 ≤ e.2) →
      ∀ e ∈ terms.foldl (fun acc t => amod acc t (· + 1) 0) m, 1 ≤ e.2 := by
  intro terms
  induction terms with
  | nil => intro m hm; exact hm
  | cons t rest ih =>
    intro m hm
    exact ih _ (mem_amod_incr_pos m t hm)

/-- The keys of the rowTermFrequencies accumulation are distinct. -/
theorem rowTF_keys_nodup (terms : List Word) :
    ((rowTermFrequenciesOf terms).map Prod.fst).Nodup := by
  have h := @nodup_map_fst_foldl_amod Word Nat _ Word (fun t => t)
    (fun _ => (· + 1)) (fun _ => 0) terms [] (by simp)
  exact h

/-- The count of an absent element is zero. -/
theorem kcount_eq_zero_of_not_mem {α : Type} [DecidableEq α] :
    ∀ (l : List α) (x : α), x ∉ l → kcount l x = 0 := by
  intro l
  induction l with
  | nil => intro x _; rfl
  | cons a rest ih =>
    intro x hx
    have ha : a ≠ x := fun hh => hx (hh ▸ List.mem_cons_self _ _)
    simp only [kcount, if_neg ha, Nat.zero_add]
    exact ih x (fun hh => hx (List.mem_cons_of_mem _ hh))

/-- The count of a member of a duplicate-free list is one. -/
theorem kcount_eq_one_of_nodup_mem {α : Type} [DecidableEq α] :
    ∀ (l : List α) (x : α), l.Nodup → x ∈ l → kcount l x = 1 := by
  intro l
  induction l with
  | nil => intro x _ hx; cases hx
  | cons a rest ih =>
    intro x hnd hx
    rcases List.nodup_cons.mp hnd with ⟨ha, hrest⟩
    by_cases hax : a = x
    · subst hax
      simp only [kcount, if_pos rfl]
      rw [kcount_eq_zero_of_not_mem rest a ha]
      rfl
    · have hx2 : x ∈ rest := by
        rcases List.mem_cons.mp hx with hh | hh
        · exact absurd hh.symm hax
        · exact hh
      simp only [kcount, if_neg hax]
      simpa using ih x hrest hx2

/-- In a duplicate-free list every count is at most one. -/
theorem kcount_le_one_of_nodup {α : Type} [DecidableEq α] {l : List α}
    (h : l.Nodup) (x : α) : kcount l x ≤ 1 := by
  by_cases hx : x ∈ l
  · rw [kcount_eq_one_of_nodup_mem l x h hx]
  · rw [kcount_eq_zero_of_not_mem l x hx]
    omega

/-- kcount distributes over append. -/
theorem kcount_append {α : Type} [DecidableEq α] (l1 l2 : List α) (x : α) :
    kcount (l1 ++ l2) x = kcount l1 x + kcount l2 x := by
  induction l1 with
  | nil => simp [kcount]
  | cons a rest ih => simp [kcount, ih]; omega

theorem processDocument_df_le (s : SearchState) (description : Word)
    (id : ListingID) (title : Word) (c : Category) (sc : SubCategory) (t : Word) :
    algetD (processDocument s description id title c sc).documentFrequencies t 0
      ≤ algetD s.documentFrequencies t 0 + 1 := by
  rw [processDocument_documentFrequencies]
  have hsplit := @algetD_count_fold_nat Word _ (Word × Nat) Prod.fst
    (rowTermFrequenciesOf (docTerms title description)) s.documentFrequencies t
  rw [hsplit]
  have hnd := rowTF_keys_nodup (docTerms title description)
  have hcount := kcount_le_one_of_nodup hnd t
  omega

theorem processDocument_freq_pos (s : SearchState) (description : Word)
    (id : ListingID) (title : Word) (c : Category) (sc : SubCategory)
    (h : ∀ t c' sc' q, q ∈ idxLookup s.invertedTermDocIndex t c' sc' → 1 ≤ q.2) :
    ∀ t c' sc' q,
      q ∈ idxLookup (processDocument s description id title c sc).invertedTermDocIndex t c' sc' →
      1 ≤ q.2 := by
  intro t c' sc' q hq
  rw [processDocument_invertedTermDocIndex] at hq
  rcases idxLookup_fold_idxAppend_sub c sc id _ _ _ _ _ _ hq with
    hin | ⟨v, hv, rfl, _, _⟩
  · exact h _ _ _ _ hin
  · exact rowTF_values_pos _ [] (by simp) _ hv

theorem foldl_loadStep_documentCount (batch : List Doc) :
    ∀ s : SearchState, (batch.foldl loadStep s).documentCount = s.documentCount := by
  induction batch with
  | nil => intro s; rfl
  | cons d rest ih =>
    intro s
    rw [List.foldl_cons, ih]
    exact processDocument_documentCount s _ _ _ _ _

theorem foldl_loadStep_df_le (batch : List Doc) :
    ∀ (s : SearchState) (t : Word),
      algetD (batch.foldl loadStep s).documentFrequencies t 0
        ≤ algetD s.documentFrequencies t 0 + batch.length := by
  induction batch with
  | nil => intro s t; simp
  | cons d rest ih =>
    intro s t
    rw [List.foldl_cons]
    have h1 := ih (loadStep s d) t
    have h2 := processDocument_df_le s d.description d.id d.title d.category
      d.subCategory t
    simp only [loadStep] at h1 h2 ⊢
    simp only [List.length_cons]
    omega

theorem foldl_loadStep_freq_pos (batch : List Doc) :
    ∀ s : SearchState,
      (∀ t c sc q, q ∈ idxLookup s.invertedTermDocIndex t c sc → 1 ≤ q.2) →
      ∀ t c sc q,
        q ∈ idxLookup (batch.foldl loadStep s).invertedTermDocIndex t c sc → 1 ≤ q.2 := by
  induction batch with
  | nil => intro s hs; exact hs
  | cons d rest ih =>
    intro s hs
    exact ih _ (processDocument_freq_pos s _ _ _ _ _ hs)

theorem loadBatch_SInv (s : SearchState) (batch : List Doc) (hs : SInv s) :
    SInv (loadBatch s batch) := by
  unfold loadBatch
  by_cases hb : batch = []
  · simpa [hb] using hs
  · rw [if_neg hb]
    refine ⟨?_, ?_, ?_⟩
    · intro h0
      exfalso
      have : batch.length = 0 := by
        simp only at h0
        omega
      exact hb (List.length_eq_zero.mp this)
    · intro t
      simp only
      have h1 := foldl_loadStep_df_le batch s t
      have h2 := hs.2.1 t
      have h3 := foldl_loadStep_documentCount batch s
      omega
    · intro t c sc q hq
      simp only at hq
      exact foldl_loadStep_freq_pos batch s hs.2.2 t c sc q hq

theorem initialState_SInv : SInv initialState := by
  refine ⟨fun _ => rfl, ?_, ?_⟩
  · intro t; simp [initialState, algetD, aget]
  · intro t c sc q hq
    simp [initialState, idxLookup, algetD, aget] at hq

/-- Every sequentially reachable loader state satisfies the invariant. -/
theorem reachable_SInv (s : SearchState) (h : reachable s) : SInv s := by
  obtain ⟨batches, rfl⟩ := h
  have main : ∀ (bs : List (List Doc)) (s0 : SearchState), SInv s0 →
      SInv (bs.foldl loadBatch s0) := by
    intro bs
    induction bs with
    | nil => intro s0 h0; exact h0
    | cons batch rest ih =>
      intro s0 h0
      exact ih _ (loadBatch_SInv s0 batch h0)
  exact main batches initialState initialState_SInv

/-- Claim C1: the source scorer disagrees with the specified BM25 formula
    whenever averageDocumentLength differs from documentCount, because its
    length normalisation divides by documentCount instead of
    averageDocumentLength (evaluated here at documentCount 3, average
    document length 2, document frequency 1, term frequency 1, document
    length 6). -/
theorem scoreTerm_divides_by_documentCount :
    scoreTerm s1C 6 (wd "dog") 1 ≠ scoreTermSpec s1C 6 (wd "dog") 1 := by
  have hdf : algetD s1C.documentFrequencies (wd "dog") 0 = 1 := by
    simp [s1C, algetD, aget]
  simp only [scoreTerm, scoreTermSpec, hdf, k1, b]
  norm_num [s1C]
  intro h
  have hL : 0 < Real.log ((5:ℝ)/3) := Real.log_pos (by norm_num)
  rw [div_eq_div_iff (by norm_num) (by norm_num)] at h
  nlinarith [hL]

/-- Claim C3 counterexample: with one document containing the term, the IDF
    is negative and raising the term frequency from 1 to 2 strictly lowers
    the score. -/
theorem scoreTerm_tf_monotonicity_fails :
    scoreTerm s3C 1 (wd "dog") 2 < scoreTerm s3C 1 (wd "dog") 1 := by
  have hdf : algetD s3C.documentFrequencies (wd "dog") 0 = 1 := by
    simp [s3C, algetD, aget]
  simp only [scoreTerm, hdf, k1, b]
  norm_num [s3C]
  have hL : Real.log ((1:ℝ)/3) < 0 := Real.log_neg (by norm_num) (by norm_num)
  nlinarith [hL]

/-- Claim C3 (amended): whenever the term IDF is nonnegative (document
    frequency at most half the corpus), the score is monotonically
    non-decreasing in term frequency and non-increasing in the document
    length argument. -/
theorem scoreTerm_monotone_of_idf_nonneg (s : SearchState) (t : Word)
    (dl dl1 dl2 tf tf1 tf2 : Nat)
    (hN : 1 ≤ s.documentCount)
    (hidf : 0 ≤ Real.log
      (((s.documentCount : ℝ) - (algetD s.documentFrequencies t 0 : Nat) + 0.5) /
        ((algetD s.documentFrequencies t 0 : Nat) + 0.5))) :
    (tf1 ≤ tf2 → scoreTerm s dl t tf1 ≤ scoreTerm s dl t tf2) ∧
    (dl1 ≤ dl2 → scoreTerm s dl2 t tf ≤ scoreTerm s dl1 t tf) := by
  have hNpos : (0:ℝ) < (s.documentCount : ℝ) := by
    have : (1:ℝ) ≤ (s.documentCount : ℝ) := by exact_mod_cast hN
    linarith
  constructor
  · intro htf
    have htf' : (tf1 : ℝ) ≤ (tf2 : ℝ) := by exact_mod_cast htf
    simp only [scoreTerm, k1, b]
    have hfrac : (0:ℝ) ≤ 0.75 * (dl : ℝ) / (s.documentCount : ℝ) := by positivity
    have hC : (0:ℝ) < 1.5 * (1 - 0.75 + 0.75 * (dl : ℝ) / (s.documentCount : ℝ)) := by
      nlinarith
    have hD1 : (0:ℝ) < (tf1 : ℝ) + 1.5 * (1 - 0.75 + 0.75 * (dl : ℝ) / (s.documentCount : ℝ)) := by
      have : (0:ℝ) ≤ (tf1 : ℝ) := Nat.cast_nonneg tf1
      linarith
    have hD2 : (0:ℝ) < (tf2 : ℝ) + 1.5 * (1 - 0.75 + 0.75 * (dl : ℝ) / (s.documentCount : ℝ)) := by
      have : (0:ℝ) ≤ (tf2 : ℝ) := Nat.cast_nonneg tf2
      linarith
    rw [div_le_div_iff₀ hD1 hD2]
    nlinarith [mul_nonneg (mul_nonneg hidf hC.le) (sub_nonneg.mpr htf')]
  · intro hdl
    have hdl' : (dl1 : ℝ) ≤ (dl2 : ℝ) := by exact_mod_cast hdl
    simp only [scoreTerm, k1, b]
    have hnum : (0:ℝ) ≤ Real.log
        (((s.documentCount : ℝ) - (algetD s.documentFrequencies t 0 : Nat) + 0.5) /
          ((algetD s.documentFrequencies t 0 : Nat) + 0.5)) * ((tf : ℝ) * (1.5 + 1)) := by
      have : (0:ℝ) ≤ (tf : ℝ) := Nat.cast_nonneg tf
      nlinarith
    have hfrac1 : (0:ℝ) ≤ 0.75 * (dl1 : ℝ) / (s.documentCount : ℝ) := by positivity
    have hD1 : (0:ℝ) < (tf : ℝ) + 1.5 * (1 - 0.75 + 0.75 * (dl1 : ℝ) / (s.documentCount : ℝ)) := by
      have : (0:ℝ) ≤ (tf : ℝ) := Nat.cast_nonneg tf
      nlinarith
    have hmono : 0.75 * (dl1 : ℝ) / (s.documentCount : ℝ)
        ≤ 0.75 * (dl2 : ℝ) / (s.documentCount : ℝ) := by
      gcongr
    gcongr

theorem scoreTerm_monotone_witness :
    (1 ≤ sWmono.documentCount ∧
      0 ≤ Real.log (((sWmono.documentCount : ℝ) -
        (algetD sWmono.documentFrequencies (wd "dog") 0 : Nat) + 0.5) /
        ((algetD sWmono.documentFrequencies (wd "dog") 0 : Nat) + 0.5))) ∧
    ((1 ≤ 2 → scoreTerm sWmono 1 (wd "dog") 1 ≤ scoreTerm sWmono 1 (wd "dog") 2) ∧
      (1 ≤ 2 → scoreTerm sWmono 2 (wd "dog") 1 ≤ scoreTerm sWmono 1 (wd "dog") 1)) := by
  have hdf : algetD sWmono.documentFrequencies (wd "dog") 0 = 1 := by
    simp [sWmono, algetD, aget]
  have hidf : 0 ≤ Real.log (((sWmono.documentCount : ℝ) -
      (algetD sWmono.documentFrequencies (wd "dog") 0 : Nat) + 0.5) /
      ((algetD sWmono.documentFrequencies (wd "dog") 0 : Nat) + 0.5)) := by
    rw [hdf]
    norm_num [sWmono]
    exact Real.log_nonneg (by norm_num)
  exact ⟨⟨by norm_num [sWmono], hidf⟩,
    scoreTerm_monotone_of_idf_nonneg sWmono (wd "dog") 1 1 2 1 1 2
      (by norm_num [sWmono]) hidf⟩

/-- Claim C9: sorting by price with order desc returns ascending order,
    identical to asc, because the source compares the order string against
    des; only the literal order string des sorts descending. -/
theorem sortListings_desc_is_ascending :
    sortListings [listingB, listingA] (some (wd "price")) (wd "desc") 0
        = [listingA, listingB] ∧
    sortListings [listingB, listingA] (some (wd "price")) (wd "asc") 0
        = [listingA, listingB] ∧
    sortListings [listingB, listingA] (some (wd "price")) (wd "des") 0
        = [listingB, listingA] := by
  refine ⟨?_, ?_, ?_⟩ <;>
    simp [sortListings, quickSort, listingA, listingB, pyLower, wd]

/-- Claim C6 counterexample: a negative offset or a negative limit is not
    rejected; Python slice semantics produce a page counted from the end of
    the listing (offset minus one with two listings returns the last one,
    and limit minus one drops only the final listing). -/
theorem negative_offset_limit_not_rejected :
    getListings [10, 20] (-1) 10 = Except.ok [20] ∧
    getListings [10, 20, 30] 0 (-1) = Except.ok [10, 20] := by
  constructor <;> rfl

/-- Claim C6 (amended): an offset at or past the total yields an empty page
    without error, a limit of zero yields an empty page, and any limit of at
    most forty (negative ones included) is accepted and sliced rather than
    rejected. -/
theorem pagination_boundary_behaviour :
    ∀ (l : List Nat) (offset limit : Int),
      ((l.length : Int) ≤ offset → paginate l offset limit = []) ∧
      (paginate l offset 0 = []) ∧
      (limit ≤ 40 → getListings l offset limit = Except.ok (paginate l offset limit)) := by
  intro l offset limit
  refine ⟨?_, ?_, ?_⟩
  · intro hoff
    unfold paginate pySlice
    have hb : pySliceBound l.length offset = l.length := by
      unfold pySliceBound
      have h0 : ¬ offset < 0 := by omega
      rw [if_neg h0]
      omega
    rw [hb]
    apply List.drop_eq_nil_of_le
    rw [List.length_take]
    exact min_le_right _ _
  · unfold paginate pySlice
    have hz : offset + 0 = offset := by ring
    rw [hz]
    apply List.drop_eq_nil_of_le
    rw [List.length_take]
    exact min_le_left _ _
  · intro hlim
    unfold getListings
    rw [if_neg (by omega)]

theorem pagination_boundary_witness :
    (((2:Nat) : Int) ≤ 3 ∧ (40:Int) ≤ 40) ∧
    (paginate [5, 6] 3 7 = ([] : List Nat) ∧ paginate [5, 6] 3 0 = ([] : List Nat) ∧
      getListings [5, 6] 0 40 = Except.ok (paginate [5, 6] 0 40)) :=
  ⟨⟨by norm_num, by norm_num⟩,
   (pagination_boundary_behaviour [5, 6] 3 7).1 (by norm_num),
   (pagination_boundary_behaviour [5, 6] 3 0).2.1,
   (pagination_boundary_behaviour [5, 6] 0 40).2.2 (by norm_num)⟩

/-- Claim C7: in every sequentially reachable index state, any stored
    posting implies a positive documentCount, so the scorer never divides by
    a zero documentCount, its logarithm argument is positive, and its
    saturation denominator is positive; with an empty corpus every candidate
    term is a no-match; and the loader only recomputes
    averageDocumentLength with a nonzero divisor. -/
theorem scoring_division_safety (s : SearchState) (h : reachable s) :
    (∀ t c sc q, q ∈ idxLookup s.invertedTermDocIndex t c sc →
      1 ≤ s.documentCount ∧ ((s.documentCount : ℝ) ≠ 0) ∧
      0 < ((s.documentCount : ℝ) - (algetD s.documentFrequencies t 0 : Nat) + 0.5) /
        ((algetD s.documentFrequencies t 0 : Nat) + 0.5) ∧
      (∀ dl : Nat,
        0 < (q.2 : ℝ) + k1 * (1 - b + b * (dl : ℝ) / (s.documentCount : ℝ)))) ∧
    (s.documentCount = 0 → ∀ category subCategory t,
      processQueryTerm s category subCategory t = []) ∧
    (∀ batch : List Doc, batch ≠ [] →
      (((batch.foldl loadStep s).documentCount + batch.length : ℕ) : ℚ) ≠ 0) := by
  have hInv := reachable_SInv s h
  refine ⟨?_, ?_, ?_⟩
  · intro t c sc q hq
    have hidx : s.invertedTermDocIndex ≠ [] := by
      intro hidx0
      rw [hidx0] at hq
      simp [idxLookup, algetD, aget] at hq
    have hcount : 1 ≤ s.documentCount := by
      rcases Nat.eq_zero_or_pos s.documentCount with h0 | hpos
      · exact absurd (hInv.1 h0) hidx
      · exact hpos
    have hcountR : (1:ℝ) ≤ (s.documentCount : ℝ) := by exact_mod_cast hcount
    have hdf := hInv.2.1 t
    have hdfR : ((algetD s.documentFrequencies t 0 : Nat) : ℝ) ≤ (s.documentCount : ℝ) := by
      exact_mod_cast hdf
    have hfreq : 1 ≤ q.2 := hInv.2.2 t c sc q hq
    have hfreqR : (1:ℝ) ≤ (q.2 : ℝ) := by exact_mod_cast hfreq
    refine ⟨hcount, by linarith, ?_, ?_⟩
    · apply div_pos
      · linarith
      · have : (0:ℝ) ≤ ((algetD s.documentFrequencies t 0 : Nat) : ℝ) :=
          Nat.cast_nonneg _
        linarith
    · intro dl
      have hfrac : (0:ℝ) ≤ b * (dl : ℝ) / (s.documentCount : ℝ) := by
        rw [b]
        positivity
      rw [k1, b]
      rw [b] at hfrac
      nlinarith
  · intro h0 category subCategory t
    have hidx := hInv.1 h0
    simp [processQueryTerm, hidx, aget]
  · intro batch hbatch
    have hlen : 1 ≤ batch.length := List.length_pos.mpr hbatch
    have hne : (batch.foldl loadStep s).documentCount + batch.length ≠ 0 := by omega
    exact Nat.cast_ne_zero.mpr hne

theorem scoring_division_safety_witness :
    reachable sC7 ∧
    ((∀ t c sc q, q ∈ idxLookup sC7.invertedTermDocIndex t c sc →
      1 ≤ sC7.documentCount ∧ ((sC7.documentCount : ℝ) ≠ 0) ∧
      0 < ((sC7.documentCount : ℝ) - (algetD sC7.documentFrequencies t 0 : Nat) + 0.5) /
        ((algetD sC7.documentFrequencies t 0 : Nat) + 0.5) ∧
      (∀ dl : Nat,
        0 < (q.2 : ℝ) + k1 * (1 - b + b * (dl : ℝ) / (sC7.documentCount : ℝ)))) ∧
    (sC7.documentCount = 0 → ∀ category subCategory t,
      processQueryTerm sC7 category subCategory t = []) ∧
    (∀ batch : List Doc, batch ≠ [] →
      (((batch.foldl loadStep sC7).documentCount + batch.length : ℕ) : ℚ) ≠ 0)) :=
  ⟨⟨[[docW]], rfl⟩, scoring_division_safety sC7 ⟨[[docW]], rfl⟩⟩

/-- Splitting on a character absent from the word returns the word alone. -/
theorem splitChar_no_sep (c : Char) : ∀ w : Word, c ∉ w → splitChar c w = [w] := by
  intro w
  induction w with
  | nil => intro _; rfl
  | cons x xs ih =>
    intro hc
    have hx : x ≠ c := fun hh => hc (hh ▸ List.mem_cons_self _ _)
    have hxs : c ∉ xs := fun hh => hc (List.mem_cons_of_mem _ hh)
    simp only [splitChar, if_neg hx, ih hxs]
    rfl

/-- splitChar never returns the empty list. -/
theorem splitChar_ne_nil (c : Char) : ∀ w : Word, splitChar c w ≠ [] := by
  intro w
  induction w with
  | nil => simp [splitChar]
  | cons x xs ih =>
    by_cases hx : x = c <;> simp [splitChar, hx]

theorem mem_keys_aset {k k0 : Word} {m : TokDict} (v : Option Word)
    (h : k ∈ m.map Prod.fst) : k ∈ (aset m k0 v).map Prod.fst :=
  (mem_map_fst_amod m k0 _ _ k).mpr (Or.inl h)

theorem mem_keys_aset_self (k0 : Word) (m : TokDict) (v : Option Word) :
    k0 ∈ (aset m k0 v).map Prod.fst :=
  (mem_map_fst_amod m k0 _ _ k0).mpr (Or.inr rfl)

theorem mem_keys_apop_ne : ∀ (m : TokDict) (k0 k : Word), k ≠ k0 →
    k ∈ m.map Prod.fst → k ∈ (apop m k0).map Prod.fst := by
  intro m
  induction m with
  | nil => intro k0 k _ h; cases h
  | cons e rest ih =>
    obtain ⟨ke, ve⟩ := e
    intro k0 k hne hmem
    rcases List.mem_cons.mp hmem with heq | htail
    · have hke : ke ≠ k0 := by
        intro hh
        exact hne (heq.symm ▸ hh ▸ rfl)
      simp [apop, hke, heq]
    · by_cases hke : ke = k0
      · simpa [apop, hke] using htail
      · simp only [apop, if_neg hke, List.map_cons, List.mem_cons]
        exact Or.inr (ih k0 k hne htail)

/-- Any fold whose steps preserve key membership preserves key membership. -/
theorem mem_keys_foldl_preserved {γ : Type} (f : TokDict → γ → TokDict)
    (hf : ∀ d e k, k ∈ d.map Prod.fst → k ∈ (f d e).map Prod.fst) :
    ∀ (L : List γ) (d : TokDict) (k : Word), k ∈ d.map Prod.fst →
      k ∈ (L.foldl f d).map Prod.fst := by
  intro L
  induction L with
  | nil => intro d k h; exact h
  | cons e rest ih => intro d k h; exact ih _ _ (hf d e k h)

/-- One second-pass tokeniser step never drops a hyphen-free key. -/
theorem tokeniseStep_preserves_key (tm : Bool) (acc : TokDict × Nat) (term : Word)
    (k : Word) (hk : '-' ∉ k) (hmem : k ∈ acc.1.map Prod.fst) :
    k ∈ (tokeniseStep tm acc term).1.map Prod.fst := by
  unfold tokeniseStep
  by_cases hhy : splitChar '-' term ≠ [term]
  · rw [if_pos hhy]
    have hkt : k ≠ term := by
      intro hh
      exact hhy (hh ▸ splitChar_no_sep '-' k hk)
    exact mem_keys_foldl_preserved _ (fun d e k' h => mem_keys_aset _ h) _ _ _
      (mem_keys_apop_ne _ _ _ hkt hmem)
  · rw [if_neg hhy]
    have hd1 : k ∈ (if 3 < term.length then
        match suffixHitLen term [5, 4, 3, 2, 1] with
        | some n => aset acc.1 (pyDropLast term n) (some term)
        | none => acc.1
      else acc.1).map Prod.fst := by
      by_cases hlen : 3 < term.length
      · rw [if_pos hlen]
        rcases hhit : suffixHitLen term [5, 4, 3, 2, 1] with _ | n
        · exact hmem
        · exact mem_keys_aset _ hmem
      · rw [if_neg hlen]
        exact hmem
    set d1 := (if 3 < term.length then
        match suffixHitLen term [5, 4, 3, 2, 1] with
        | some n => aset acc.1 (pyDropLast term n) (some term)
        | none => acc.1
      else acc.1) with hd1def
    by_cases htypo : aget d1 term = some none ∧ tm = true
    · rw [if_pos htypo]
      exact mem_keys_foldl_preserved _
        (fun d e k' h =>
          mem_keys_foldl_preserved _ (fun d' e' k'' h' => mem_keys_aset _ h') _ _ _ h)
        _ _ _ hd1
    · rw [if_neg htypo]
      exact hd1

/-- Processing a hyphen-free, suffix-bearing term adds its stripped form as a
    key and keeps the term itself when already present. -/
theorem tokeniseStep_strips (tm : Bool) (acc : TokDict × Nat) (w : Word) (n : Nat)
    (hhy : '-' ∉ w) (hlen : 3 < w.length)
    (hhit : suffixHitLen w [5, 4, 3, 2, 1] = some n) :
    pyDropLast w n ∈ (tokeniseStep tm acc w).1.map Prod.fst ∧
    (w ∈ acc.1.map Prod.fst → w ∈ (tokeniseStep tm acc w).1.map Prod.fst) := by
  unfold tokeniseStep
  have hsp : ¬ splitChar '-' w ≠ [w] := by
    rw [splitChar_no_sep '-' w hhy]
    exact fun hh => hh rfl
  rw [if_neg hsp]
  simp only [if_pos hlen, hhit]
  have hstrip : pyDropLast w n ∈ (aset acc.1 (pyDropLast w n) (some w)).map Prod.fst :=
    mem_keys_aset_self _ _ _
  have hkeep : w ∈ acc.1.map Prod.fst →
      w ∈ (aset acc.1 (pyDropLast w n) (some w)).map Prod.fst :=
    fun h => mem_keys_aset _ h
  by_cases htypo : aget (aset acc.1 (pyDropLast w n) (some w)) w = some none ∧ tm = true
  · rw [if_pos htypo]
    constructor
    · exact mem_keys_foldl_preserved _
        (fun d e k' h =>
          mem_keys_foldl_preserved _ (fun d' e' k'' h' => mem_keys_aset _ h') _ _ _ h)
        _ _ _ hstrip
    · intro hw
      exact mem_keys_foldl_preserved _
        (fun d e k' h =>
          mem_keys_foldl_preserved _ (fun d' e' k'' h' => mem_keys_aset _ h') _ _ _ h)
        _ _ _ (hkeep hw)
  · rw [if_neg htypo]
    exact ⟨hstrip, hkeep⟩

/-- The whole second tokeniser pass never drops a hyphen-free key. -/
theorem mem_keys_tokeniseFold (tm : Bool) :
    ∀ (L : List Word) (acc : TokDict × Nat) (k : Word), '-' ∉ k →
      k ∈ acc.1.map Prod.fst → k ∈ (L.foldl (tokeniseStep tm) acc).1.map Prod.fst := by
  intro L
  induction L with
  | nil => intro acc k _ h; exact h
  | cons t rest ih =>
    intro acc k hk h
    exact ih _ _ hk (tokeniseStep_preserves_key tm acc t k hk h)

/-- Claim C10 (amended): the stripped form and the original word are both
    keys of the tokeniser output for every hyphen-free suffix-stripped word. -/
theorem stripped_and_original_both_indexed (q w : Word) (n : Nat)
    (hw : w ∈ (tokenisePass1 q).map Prod.fst) (hhy : '-' ∉ w)
    (hlen : 3 < w.length) (hhit : suffixHitLen w [5, 4, 3, 2, 1] = some n) :
    pyDropLast w n ∈ (tokeniseQuery q false).2.map Prod.fst ∧
    w ∈ (tokeniseQuery q false).2.map Prod.fst := by
  obtain ⟨l1, l2, hsplit⟩ := List.append_of_mem hw
  have hhy2 : '-' ∉ pyDropLast w n := fun hmem => hhy (List.take_subset _ _ hmem)
  unfold tokeniseQuery
  simp only [hsplit, List.foldl_append, List.foldl_cons]
  have hwpre : w ∈ ((l1.foldl (tokeniseStep false)
      (tokenisePass1 q, (tokenisePass1 q).length)).1.map Prod.fst) :=
    mem_keys_tokeniseFold false l1 _ w hhy hw
  have hmid := tokeniseStep_strips false
    (l1.foldl (tokeniseStep false) (tokenisePass1 q, (tokenisePass1 q).length))
    w n hhy hlen hhit
  exact ⟨mem_keys_tokeniseFold false l2 _ _ hhy2 hmid.1,
    mem_keys_tokeniseFold false l2 _ _ hhy (hmid.2 hwpre)⟩

/-- Claim C10 counterexample: in the query worked workeds, the later word
    workeds strips its final letter and overwrites the dict value of the
    original word worked, which therefore no longer maps to False. -/
theorem original_word_value_remapped :
    aget (tokeniseQuery (wd "worked workeds") false).2 (wd "worked")
        = some (some (wd "workeds")) ∧
    some (some (wd "workeds")) ≠ some (none : Option Word) := by
  constructor
  · decide
  · simp

theorem stripped_and_original_both_indexed_witness :
    (wd "worked" ∈ (tokenisePass1 (wd "worked")).map Prod.fst ∧ '-' ∉ wd "worked" ∧
      3 < (wd "worked").length ∧
      suffixHitLen (wd "worked") [5, 4, 3, 2, 1] = some 2) ∧
    (pyDropLast (wd "worked") 2 ∈ (tokeniseQuery (wd "worked") false).2.map Prod.fst ∧
      wd "worked" ∈ (tokeniseQuery (wd "worked") false).2.map Prod.fst) :=
  ⟨⟨by decide, by decide, by decide, by decide⟩,
    stripped_and_original_both_indexed (wd "worked") (wd "worked") 2
      (by decide) (by decide) (by decide) (by decide)⟩

/-- The keys of apop form a sublist of the original keys. -/
theorem map_fst_apop_sublist {α β : Type} [DecidableEq α] :
    ∀ (m : List (α × β)) (k : α), ((apop m k).map Prod.fst).Sublist (m.map Prod.fst) := by
  intro m
  induction m with
  | nil => intro k; simp [apop]
  | cons e rest ih =>
    obtain ⟨ke, ve⟩ := e
    intro k
    by_cases hk : ke = k
    · simp only [apop, if_pos hk, List.map_cons]
      exact (List.sublist_cons_self _ _)
    · simp only [apop, if_neg hk, List.map_cons]
      exact (ih k).cons₂ ke

theorem nodup_keys_apop {α β : Type} [DecidableEq α] (m : List (α × β)) (k : α)
    (h : (m.map Prod.fst).Nodup) : ((apop m k).map Prod.fst).Nodup :=
  h.sublist (map_fst_apop_sublist m k)

/-- Any fold whose steps preserve key distinctness preserves it. -/
theorem nodup_keys_foldl {γ : Type} (f : TokDict → γ → TokDict)
    (hf : ∀ d e, (d.map Prod.fst).Nodup → ((f d e).map Prod.fst).Nodup) :
    ∀ (L : List γ) (d : TokDict), (d.map Prod.fst).Nodup →
      ((L.foldl f d).map Prod.fst).Nodup := by
  intro L
  induction L with
  | nil => intro d h; exact h
  | cons e rest ih => intro d h; exact ih _ (hf d e h)

theorem nodup_keys_tokenisePass1 (q : Word) :
    ((tokenisePass1 q).map Prod.fst).Nodup := by
  unfold tokenisePass1
  apply nodup_keys_foldl
  · intro d e h
    by_cases hc : pyTruthy (aget d e) = true
    · simpa [hc] using h
    · simp only [hc, if_false, Bool.false_eq_true]
      exact nodup_map_fst_amod _ _ _ _ h
  · simp

theorem tokeniseStep_preserves_nodup (tm : Bool) (acc : TokDict × Nat) (term : Word)
    (h : (acc.1.map Prod.fst).Nodup) :
    (((tokeniseStep tm acc term).1).map Prod.fst).Nodup := by
  unfold tokeniseStep
  by_cases hhy : splitChar '-' term ≠ [term]
  · rw [if_pos hhy]
    exact nodup_keys_foldl _ (fun d e hh => nodup_map_fst_amod _ _ _ _ hh) _ _
      (nodup_keys_apop _ _ h)
  · rw [if_neg hhy]
    have hd1 : ((if 3 < term.length then
        match suffixHitLen term [5, 4, 3, 2, 1] with
        | some n => aset acc.1 (pyDropLast term n) (some term)
        | none => acc.1
      else acc.1).map Prod.fst).Nodup := by
      by_cases hlen : 3 < term.length
      · rw [if_pos hlen]
        rcases hhit : suffixHitLen term [5, 4, 3, 2, 1] with _ | n
        · exact h
        · exact nodup_map_fst_amod _ _ _ _ h
      · rw [if_neg hlen]
        exact h
    set d1 := (if 3 < term.length then
        match suffixHitLen term [5, 4, 3, 2, 1] with
        | some n => aset acc.1 (pyDropLast term n) (some term)
        | none => acc.1
      else acc.1) with hd1def
    by_cases htypo : aget d1 term = some none ∧ tm = true
    · rw [if_pos htypo]
      exact nodup_keys_foldl _
        (fun d e hh =>
          nodup_keys_foldl _ (fun d' e' hh' => nodup_map_fst_amod _ _ _ _ hh') _ _ hh)
        _ _ hd1
    · rw [if_neg htypo]
      exact hd1

/-- The second pass preserves key distinctness through its whole fold. -/
theorem nodup_keys_tokeniseFold (tm : Bool) :
    ∀ (L : List Word) (acc : TokDict × Nat), (acc.1.map Prod.fst).Nodup →
      (((L.foldl (tokeniseStep tm) acc).1).map Prod.fst).Nodup := by
  intro L
  induction L with
  | nil => intro acc h; exact h
  | cons t rest ih =>
    intro acc h
    exact ih _ (tokeniseStep_preserves_nodup tm acc t h)

/-- The tokeniser output always has distinct keys. -/
theorem nodup_keys_tokeniseQuery (q : Word) (tm : Bool) :
    ((tokeniseQuery q tm).2.map Prod.fst).Nodup := by
  unfold tokeniseQuery
  exact nodup_keys_tokeniseFold tm _ _ (nodup_keys_tokenisePass1 q)

/-- Claim C8 (amended): the stored posting frequency counts the term once per
    field whose tokenised key set contains it, not once per occurrence. -/
theorem posting_frequency_counts_fields (s : SearchState) (description : Word)
    (id : ListingID) (title : Word) (c : Category) (sc : SubCategory) (t : Word)
    (ht : t ∈ docTerms title description) :
    idxLookup (processDocument s description id title c sc).invertedTermDocIndex t c sc
      = idxLookup s.invertedTermDocIndex t c sc
          ++ [(id, kcount (docTerms title description) t)] ∧
    kcount (docTerms title description) t
      = kcount ((tokeniseQuery title).2.map Prod.fst) t
        + kcount ((tokeniseQuery description).2.map Prod.fst) t ∧
    kcount ((tokeniseQuery title).2.map Prod.fst) t ≤ 1 ∧
    kcount ((tokeniseQuery description).2.map Prod.fst) t ≤ 1 := by
  have hval : algetD (rowTermFrequenciesOf (docTerms title description)) t 0
      = kcount (docTerms title description) t := by
    have h := @algetD_count_fold_nat Word _ Word (fun x => x)
      (docTerms title description) [] t
    rw [List.map_id'] at h
    simpa [rowTermFrequenciesOf, algetD, aget] using h
  have hkey : t ∈ (rowTermFrequenciesOf (docTerms title description)).map Prod.fst := by
    have h := @mem_map_fst_foldl_amod Word Nat _ Word (fun x => x)
      (fun _ => (· + 1)) (fun _ => 0) (docTerms title description) [] t
    rw [rowTermFrequenciesOf, h]
    right
    simpa [List.map_id'] using ht
  have hsome : aget (rowTermFrequenciesOf (docTerms title description)) t
      = some (kcount (docTerms title description) t) := by
    rcases hag : aget (rowTermFrequenciesOf (docTerms title description)) t with _ | x
    · exact absurd ((aget_eq_none_iff _ _).mp hag) (by simpa using hkey)
    · rw [← hval]
      simp [algetD, hag]
  refine ⟨?_, ?_, ?_, ?_⟩
  · rw [processDocument_invertedTermDocIndex]
    exact idxLookup_fold_idxAppend_mem c sc id _ _ _ _
      (rowTF_keys_nodup _) (mem_of_aget_eq_some _ _ _ hsome)
  · rw [docTerms, kcount_append]
  · exact kcount_le_one_of_nodup (nodup_keys_tokeniseQuery title false) t
  · exact kcount_le_one_of_nodup (nodup_keys_tokeniseQuery description false) t

/-- Claim C8 counterexample: a title containing cat twice stores a posting
    frequency of 1 for cat, while the term occurs twice in the tokenised
    title plus description. -/
theorem posting_frequency_deduplicated_counterexample :
    idxLookup sC8.invertedTermDocIndex (wd "cat") 0 0 = [(7, 1)] ∧
    specOccurrenceCount (wd "cat cat") (wd "") (wd "cat") = 2 := by
  constructor <;> decide

theorem posting_frequency_counts_fields_witness :
    (wd "cat" ∈ docTerms (wd "cat") (wd "dog")) ∧
    (idxLookup (processDocument initialState (wd "dog") 7 (wd "cat") 0 0).invertedTermDocIndex
        (wd "cat") 0 0
      = idxLookup initialState.invertedTermDocIndex (wd "cat") 0 0
          ++ [(7, kcount (docTerms (wd "cat") (wd "dog")) (wd "cat"))] ∧
    kcount (docTerms (wd "cat") (wd "dog")) (wd "cat")
      = kcount ((tokeniseQuery (wd "cat")).2.map Prod.fst) (wd "cat")
        + kcount ((tokeniseQuery (wd "dog")).2.map Prod.fst) (wd "cat") ∧
    kcount ((tokeniseQuery (wd "cat")).2.map Prod.fst) (wd "cat") ≤ 1 ∧
    kcount ((tokeniseQuery (wd "dog")).2.map Prod.fst) (wd "cat") ≤ 1) :=
  ⟨by decide,
    posting_frequency_counts_fields initialState (wd "dog") 7 (wd "cat") 0 0
      (wd "cat") (by decide)⟩

theorem kcount_pos_iff_mem {α : Type} [DecidableEq α] :
    ∀ (l : List α) (x : α), 0 < kcount l x ↔ x ∈ l := by
  intro l
  induction l with
  | nil => intro x; simp [kcount]
  | cons a rest ih =>
    intro x
    by_cases hax : a = x
    · subst hax
      simp [kcount]
    · have hx2 : ¬ x = a := fun hh => hax hh.symm
      simp [kcount, hax, hx2, ih]

/-- Keys of a score-accumulation fold. -/
theorem mem_keys_score_fold {γ : Type} (keyf : γ → ListingID) (valf : γ → ℝ) :
    ∀ (L : List γ) (m : List (ListingID × ℝ)) (x : ListingID),
      (x ∈ (L.foldl (fun acc e => aincr acc (keyf e) (valf e)) m).map Prod.fst) ↔
        x ∈ m.map Prod.fst ∨ x ∈ L.map keyf :=
  @mem_map_fst_foldl_amod ListingID ℝ _ γ keyf (fun e => (· + valf e)) (fun _ => 0)

/-- Keys of the per-term score-map merge. -/
theorem mem_keys_merge_fold :
    ∀ (scoreLists : List (List (ListingID × ℝ))) (m : List (ListingID × ℝ))
      (x : ListingID),
      (x ∈ ((scoreLists.foldl
          (fun acc ts => ts.foldl (fun acc' p => aincr acc' p.1 p.2) acc) m).map Prod.fst)) ↔
        x ∈ m.map Prod.fst ∨ ∃ ts ∈ scoreLists, x ∈ ts.map Prod.fst := by
  intro scoreLists
  induction scoreLists with
  | nil => intro m x; simp
  | cons ts rest ih =>
    intro m x
    rw [List.foldl_cons, ih]
    rw [mem_keys_score_fold Prod.fst Prod.snd ts m x]
    simp only [List.mem_cons]
    constructor
    · rintro ((h | h) | ⟨ts', hts', h⟩)
      · exact Or.inl h
      · exact Or.inr ⟨ts, Or.inl rfl, h⟩
      · exact Or.inr ⟨ts', Or.inr hts', h⟩
    · rintro (h | ⟨ts', hts' | hts', h⟩)
      · exact Or.inl (Or.inl h)
      · exact Or.inl (Or.inr (hts' ▸ h))
      · exact Or.inr ⟨ts', hts', h⟩

/-- Keys of one per-term score map. -/
theorem mem_keys_processQueryTerm (s : SearchState) (category : Option Category)
    (subCategory : Option SubCategory) (t : Word) (x : ListingID) :
    (x ∈ (processQueryTerm s category subCategory t).map Prod.fst) ↔
      aget s.invertedTermDocIndex t ≠ none ∧
        x ∈ (getIndexedListingsByFilters s category subCategory (some t)).map Prod.fst := by
  unfold processQueryTerm
  rcases hag : aget s.invertedTermDocIndex t with _ | v
  · simp [hag]
  · simp only [hag]
    rw [mem_keys_score_fold
      (fun p : ListingID × Nat => p.1)
      (fun p : ListingID × Nat =>
        scoreTerm s (algetD s.termFrequencies p.1 []).length t p.2)]
    simp

theorem aset_ne_nil {α β : Type} [DecidableEq α] (m : List (α × β)) (k : α) (v : β) :
    aset m k v ≠ [] := by
  cases m with
  | nil => simp [aset, amod]
  | cons e rest =>
    obtain ⟨ke, ve⟩ := e
    by_cases h : ke = k <;> simp [aset, amod, h]

theorem foldl_aset_ne_nil :
    ∀ (L : List Word) (d : TokDict), L ≠ [] →
      L.foldl (fun d' w => aset d' w none) d ≠ [] := by
  intro L
  induction L with
  | nil => intro d h; exact absurd rfl h
  | cons w rest ih =>
    intro d _
    by_cases hr : rest = []
    · subst hr
      exact aset_ne_nil d w none
    · exact ih _ hr

theorem tokenisePass1_ne_nil (q : Word) : tokenisePass1 q ≠ [] := by
  unfold tokenisePass1
  rcases hsp : splitChar ' ' (pyLower q) with _ | ⟨w, rest⟩
  · exact absurd hsp (splitChar_ne_nil ' ' _)
  · rw [List.foldl_cons]
    have hfirst : (if pyTruthy (aget ([] : TokDict) w) then ([] : TokDict)
        else aset [] w none) = aset [] w none := by
      simp [aget, pyTruthy]
    rw [hfirst]
    have main : ∀ (L : List Word) (d : TokDict), d ≠ [] →
        L.foldl (fun d' w' => if pyTruthy (aget d' w') then d' else aset d' w' none) d ≠ [] := by
      intro L
      induction L with
      | nil => intro d h; exact h
      | cons w' rest' ih =>
        intro d h
        apply ih
        by_cases hc : pyTruthy (aget d w') = true
        · simpa [hc] using h
        · simp only [hc, if_false, Bool.false_eq_true]
          exact aset_ne_nil d w' none
    exact main rest _ (aset_ne_nil [] w none)

theorem tokeniseStep_ne_nil (tm : Bool) (acc : TokDict × Nat) (term : Word)
    (h : acc.1 ≠ []) : (tokeniseStep tm acc term).1 ≠ [] := by
  unfold tokeniseStep
  by_cases hhy : splitChar '-' term ≠ [term]
  · rw [if_pos hhy]
    exact foldl_aset_ne_nil _ _ (splitChar_ne_nil '-' term)
  · rw [if_neg hhy]
    have hd1 : (if 3 < term.length then
        match suffixHitLen term [5, 4, 3, 2, 1] with
        | some n => aset acc.1 (pyDropLast term n) (some term)
        | none => acc.1
      else acc.1) ≠ [] := by
      by_cases hlen : 3 < term.length
      · rw [if_pos hlen]
        rcases suffixHitLen term [5, 4, 3, 2, 1] with _ | n
        · exact h
        · exact aset_ne_nil _ _ _
      · rw [if_neg hlen]
        exact h
    set d1 := (if 3 < term.length then
        match suffixHitLen term [5, 4, 3, 2, 1] with
        | some n => aset acc.1 (pyDropLast term n) (some term)
        | none => acc.1
      else acc.1) with hd1def
    by_cases htypo : aget d1 term = some none ∧ tm = true
    · rw [if_pos htypo]
      have main : ∀ (L : List (Nat × Char)) (d : TokDict), d ≠ [] →
          (L.foldl (fun d' p => (COMMON_TYPO_LETTERS p.2).foldl
            (fun d'' tl => aset d'' (term.take p.1 ++ tl :: term.drop (p.1 + 1))
              (some term)) d') d) ≠ [] := by
        intro L
        induction L with
        | nil => intro d hd; exact hd
        | cons p rest ih =>
          intro d hd
          apply ih
          have inner : ∀ (cs : List Char) (d0 : TokDict), d0 ≠ [] →
              (cs.foldl (fun d'' tl => aset d'' (term.take p.1 ++ tl :: term.drop (p.1 + 1))
                (some term)) d0) ≠ [] := by
            intro cs
            induction cs with
            | nil => intro d0 h0; exact h0
            | cons c rest2 ih2 => intro d0 _; exact ih2 _ (aset_ne_nil _ _ _)
          exact inner _ _ hd
      exact main _ _ hd1
    · rw [if_neg htypo]
      exact hd1

/-- The tokenised dict is never empty: every query yields at least one term. -/
theorem tokeniseQuery_ne_nil (q : Word) (tm : Bool) : (tokeniseQuery q tm).2 ≠ [] := by
  unfold tokeniseQuery
  have main : ∀ (L : List Word) (acc : TokDict × Nat), acc.1 ≠ [] →
      (L.foldl (tokeniseStep tm) acc).1 ≠ [] := by
    intro L
    induction L with
    | nil => intro acc h; exact h
    | cons t rest ih =>
      intro acc h
      exact ih _ (tokeniseStep_ne_nil tm acc t h)
  exact main _ _ (tokenisePass1_ne_nil q)

/-- The ranked ids produced by a text query: exactly the documents carrying
    some query term through the active filters. -/
theorem mem_ids_queryDocuments (s : SearchState) (q : Word)
    (category : Option Category) (subCategory : Option SubCategory) (x : ListingID) :
    (x ∈ ((queryDocuments s (some q) category subCategory).2.map Prod.fst)) ↔
      ∃ t ∈ (tokeniseQuery q true).2.map Prod.fst,
        aget s.invertedTermDocIndex t ≠ none ∧
        x ∈ (getIndexedListingsByFilters s category subCategory (some t)).map Prod.fst := by
  have hne : (tokeniseQuery q true).2.map Prod.fst ≠ [] := by
    intro hh
    exact tokeniseQuery_ne_nil q true (List.map_eq_nil_iff.mp hh)
  unfold queryDocuments
  simp only
  rw [if_neg hne]
  simp only []
  rw [mem_map_fst_sortScores, mem_keys_merge_fold]
  simp only [List.map_nil, List.not_mem_nil, false_or]
  constructor
  · rintro ⟨ts, hts, hmem⟩
    obtain ⟨t, ht, rfl⟩ := List.mem_map.mp hts
    exact ⟨t, ht, (mem_keys_processQueryTerm s category subCategory t x).mp hmem⟩
  · rintro ⟨t, ht, hag, hmem⟩
    exact ⟨processQueryTerm s category subCategory t, List.mem_map_of_mem _ ht,
      (mem_keys_processQueryTerm s category subCategory t x).mpr ⟨hag, hmem⟩⟩

/-- Claim C2 (amended): an absent query returns each indexed document in the
    filtered scope with score equal to its number of postings in that scope. -/
theorem queryDocuments_no_query (s : SearchState) (category : Option Category)
    (subCategory : Option SubCategory) (x : ListingID) (r : ℝ) :
    ((x, r) ∈ (queryDocuments s none category subCategory).2) ↔
      (0 < kcount ((getIndexedListingsByFilters s category subCategory none).map Prod.fst) x ∧
        r = (kcount ((getIndexedListingsByFilters s category subCategory none).map Prod.fst) x : ℝ)) := by
  unfold queryDocuments
  simp only [List.map_nil, if_true]
  rw [mem_sortScores]
  set L := getIndexedListingsByFilters s category subCategory none with hL
  have hkeys : ∀ y : ListingID,
      (y ∈ (L.foldl (fun m p => aincr m p.1 1) []).map Prod.fst) ↔ y ∈ L.map Prod.fst := by
    intro y
    rw [mem_keys_score_fold (fun p : ListingID × Nat => p.1) (fun _ => (1:ℝ))]
    simp
  have hnd : ((L.foldl (fun m p => aincr m p.1 1) []).map Prod.fst).Nodup :=
    @nodup_map_fst_foldl_amod ListingID ℝ _ (ListingID × Nat) Prod.fst
      (fun _ => (· + 1)) (fun _ => 0) L [] (by simp)
  have hval : ∀ y : ListingID,
      algetD (L.foldl (fun m p => aincr m p.1 1) []) y 0
        = (kcount (L.map Prod.fst) y : ℝ) := by
    intro y
    have h := @algetD_count_fold_real ListingID _ (ListingID × Nat) Prod.fst L [] y
    simpa [algetD, aget] using h
  constructor
  · intro hmem
    have hag : aget (L.foldl (fun m p => aincr m p.1 1) []) x = some r :=
      aget_eq_some_of_mem _ _ _ hnd hmem
    have hx : x ∈ L.map Prod.fst := by
      rw [← hkeys]
      exact List.mem_map_of_mem Prod.fst hmem
    refine ⟨(kcount_pos_iff_mem _ _).mpr hx, ?_⟩
    have hv := hval x
    rw [algetD, hag] at hv
    simpa using hv
  · rintro ⟨hpos, rfl⟩
    have hx : x ∈ L.map Prod.fst := (kcount_pos_iff_mem _ _).mp hpos
    have hxk : x ∈ (L.foldl (fun m p => aincr m p.1 1) []).map Prod.fst :=
      (hkeys x).mpr hx
    rcases hag : aget (L.foldl (fun m p => aincr m p.1 1) []) x with _ | v
    · exact absurd ((aget_eq_none_iff _ _).mp hag) (by simpa using hxk)
    · have hv : v = (kcount (L.map Prod.fst) x : ℝ) := by
        have h := hval x
        rw [algetD, hag] at h
        simpa using h
      exact hv ▸ mem_of_aget_eq_some _ _ _ hag

/-- Claim C2 counterexample: an empty query string is tokenised to the
    single empty term and scored as an ordinary query, returning no results
    even though the requested category scope is nonempty. -/
theorem empty_text_query_counterexample :
    (queryDocuments sC2 (some (wd "")) (some 0) (some 1)).1 = none ∧
    (queryDocuments sC2 (some (wd "")) (some 0) (some 1)).2 = [] ∧
    getIndexedListingsByFilters sC2 (some 0) (some 1) none ≠ [] := by
  have htok : (tokeniseQuery (wd "") true).2 = [(wd "", none)] := by decide
  have hne : ([(wd "", none)] : TokDict).map Prod.fst ≠ [] := by decide
  have hag : aget sC2.invertedTermDocIndex (wd "") = none := by
    have h : (aget sC2.invertedTermDocIndex (wd "")).isNone = true := by decide
    exact Option.isNone_iff_eq_none.mp h
  have hpqt : processQueryTerm sC2 (some 0) (some 1) (wd "") = [] := by
    unfold processQueryTerm
    rw [hag]
  refine ⟨?_, ?_, by decide⟩
  · unfold queryDocuments
    simp only [htok]
    rw [if_neg hne]
    simp only [suggestedQueryFor]
    have halg : algetD sC2.invertedTermDocIndex (wd "") [] = [] := by
      rw [algetD, hag]
      rfl
    rw [if_pos halg]
  · unfold queryDocuments
    simp only [htok]
    rw [if_neg hne]
    simp only [List.map_cons, List.map_nil, hpqt, List.foldl_cons, List.foldl_nil]
    simp [sortScores, quickSort]

/-- Claim C4 counterexample: in a corpus with wiget once and widget in
    fifty documents, querying wiget yields no suggestion at all, because the
    substitution-only typo table can never produce the six-letter widget
    from the five-letter wiget. -/
theorem wiget_widget_no_suggestion :
    algetD sC4.documentFrequencies (wd "wiget") 0 = 1 ∧
    algetD sC4.documentFrequencies (wd "widget") 0 = 50 ∧
    (queryDocuments sC4 (some (wd "wiget")) none none).1 = none := by
  have hne : (tokeniseQuery (wd "wiget") true).2.map Prod.fst ≠ [] := by decide
  refine ⟨by decide, by decide, ?_⟩
  unfold queryDocuments
  rw [if_neg hne]
  show suggestedQueryFor sC4 (wd "wiget") ((tokeniseQuery (wd "wiget") true).2.map Prod.fst)
    ((tokeniseQuery (wd "wiget") true).2.filter (fun p => p.2.isSome)) = none
  decide

/-- Claim C4 (amended): typo suggestions arise from single-letter
    substitutions; with wiget once and its substitution variant witet in
    fifty documents, querying wiget surfaces witet as the suggested
    query. -/
theorem substitution_typo_suggested :
    algetD sC4b.documentFrequencies (wd "wiget") 0 = 1 ∧
    algetD sC4b.documentFrequencies (wd "witet") 0 = 50 ∧
    (queryDocuments sC4b (some (wd "wiget")) none none).1 = some (wd "witet") := by
  have hne : (tokeniseQuery (wd "wiget") true).2.map Prod.fst ≠ [] := by decide
  refine ⟨by decide, by decide, ?_⟩
  unfold queryDocuments
  rw [if_neg hne]
  show suggestedQueryFor sC4b (wd "wiget") ((tokeniseQuery (wd "wiget") true).2.map Prod.fst)
    ((tokeniseQuery (wd "wiget") true).2.filter (fun p => p.2.isSome)) = some (wd "witet")
  decide

/-- Flattening the values of a duplicate-free association list reaches
    exactly the elements reachable through some key lookup. -/
theorem mem_flatMap_algetD {κ β2 δ : Type} [DecidableEq κ] (l : List (κ × β2))
    (g : β2 → List δ) (dflt : β2) (hnd : (l.map Prod.fst).Nodup)
    (hg : g dflt = []) (y : δ) :
    (y ∈ l.flatMap (fun e => g e.2)) ↔ ∃ k, y ∈ g (algetD l k dflt) := by
  constructor
  · intro hy
    obtain ⟨e, he, hye⟩ := List.mem_flatMap.mp hy
    refine ⟨e.1, ?_⟩
    have hag : aget l e.1 = some e.2 := aget_eq_some_of_mem l e.1 e.2 hnd he
    rw [algetD, hag]
    exact hye
  · rintro ⟨k, hk⟩
    rcases hag : aget l k with _ | v
    · rw [algetD, hag] at hk
      simp only [Option.getD_none] at hk
      rw [hg] at hk
      cases hk
    · rw [algetD, hag] at hk
      simp only [Option.getD_some] at hk
      exact List.mem_flatMap.mpr ⟨(k, v), mem_of_aget_eq_some l k v hag, hk⟩

/-- The subcategory level of a well-formed index has distinct keys. -/
theorem WFIndex_sub_nodup (s : SearchState) (hWF : WFIndex s) (t : Word)
    (c : Category) :
    ((algetD (algetD s.invertedTermDocIndex t []) c []).map Prod.fst).Nodup := by
  rcases hag : aget s.invertedTermDocIndex t with _ | ci
  · simp [algetD, hag, aget]
  · have hci := (hWF.2 (t, ci) (mem_of_aget_eq_some _ _ _ hag))
    rcases hag2 : aget ci c with _ | si
    · simp [algetD, hag, hag2, aget]
    · have hsi := hci.2 (c, si) (mem_of_aget_eq_some _ _ _ hag2)
      simpa [algetD, hag, hag2] using hsi

/-- The category level of a well-formed index has distinct keys. -/
theorem WFIndex_cat_nodup (s : SearchState) (hWF : WFIndex s) (t : Word) :
    ((algetD s.invertedTermDocIndex t []).map Prod.fst).Nodup := by
  rcases hag : aget s.invertedTermDocIndex t with _ | ci
  · simp [algetD, hag, aget]
  · have hci := (hWF.2 (t, ci) (mem_of_aget_eq_some _ _ _ hag))
    simpa [algetD, hag] using hci.1

/-- Querying a category without a subcategory reaches exactly the union of
    its subcategory buckets, per term. -/
theorem getIdx_subcat_union (s : SearchState) (hWF : WFIndex s) (c : Category)
    (t : Word) (y : ListingID × Nat) :
    (y ∈ getIndexedListingsByFilters s (some c) none (some t)) ↔
      ∃ sc, y ∈ getIndexedListingsByFilters s (some c) (some sc) (some t) := by
  unfold getIndexedListingsByFilters idxLookup
  exact mem_flatMap_algetD _ (fun ps => ps) [] (WFIndex_sub_nodup s hWF t c) rfl y

/-- Querying without a category reaches exactly the union over stored
    categories, per nonempty term. -/
theorem getIdx_cat_union (s : SearchState) (hWF : WFIndex s) (t : Word)
    (ht : t ≠ []) (sub0 : Option SubCategory) (y : ListingID × Nat) :
    (y ∈ getIndexedListingsByFilters s none sub0 (some t)) ↔
      ∃ c, y ∈ getIndexedListingsByFilters s (some c) none (some t) := by
  unfold getIndexedListingsByFilters
  dsimp only
  rw [if_neg ht]
  exact mem_flatMap_algetD _ (fun si => si.flatMap Prod.snd) []
    (WFIndex_cat_nodup s hWF t) rfl y

/-- Claim C5 (amended): returned documents respect exact category and
    subcategory filters; an absent subcategory is the union over
    subcategories; an absent category is the union over stored categories
    for queries without the empty-string token. -/
theorem queryDocuments_filter_scoping (s : SearchState) (q : Word) (c : Category)
    (sc : SubCategory) (sub0 : Option SubCategory) (x : ListingID)
    (hWF : WFIndex s) :
    (x ∈ ((queryDocuments s (some q) (some c) (some sc)).2.map Prod.fst) →
      ∃ t tf, (x, tf) ∈ idxLookup s.invertedTermDocIndex t c sc) ∧
    ((x ∈ ((queryDocuments s (some q) (some c) none).2.map Prod.fst)) ↔
      ∃ sc', x ∈ ((queryDocuments s (some q) (some c) (some sc')).2.map Prod.fst)) ∧
    ([] ∉ (tokeniseQuery q true).2.map Prod.fst →
      ((x ∈ ((queryDocuments s (some q) none sub0).2.map Prod.fst)) ↔
        ∃ c', x ∈ ((queryDocuments s (some q) (some c') none).2.map Prod.fst))) := by
  refine ⟨?_, ?_, ?_⟩
  · intro hx
    rw [mem_ids_queryDocuments] at hx
    obtain ⟨t, ht, hag, hmem⟩ := hx
    obtain ⟨p, hp, hpx⟩ := List.mem_map.mp hmem
    have hp2 : (p.1, p.2) ∈ idxLookup s.invertedTermDocIndex t c sc := hp
    rw [hpx] at hp2
    exact ⟨t, p.2, hp2⟩
  · rw [mem_ids_queryDocuments]
    constructor
    · rintro ⟨t, ht, hag, hmem⟩
      obtain ⟨p, hp, hpx⟩ := List.mem_map.mp hmem
      obtain ⟨sc', hsc⟩ := (getIdx_subcat_union s hWF c t p).mp hp
      refine ⟨sc', ?_⟩
      rw [mem_ids_queryDocuments]
      exact ⟨t, ht, hag, List.mem_map.mpr ⟨p, hsc, hpx⟩⟩
    · rintro ⟨sc', hsc⟩
      rw [mem_ids_queryDocuments] at hsc
      obtain ⟨t, ht, hag, hmem⟩ := hsc
      obtain ⟨p, hp, hpx⟩ := List.mem_map.mp hmem
      exact ⟨t, ht, hag, List.mem_map.mpr
        ⟨p, (getIdx_subcat_union s hWF c t p).mpr ⟨sc', hp⟩, hpx⟩⟩
  · intro hq
    rw [mem_ids_queryDocuments]
    constructor
    · rintro ⟨t, ht, hag, hmem⟩
      have htne : t ≠ [] := fun hh => hq (hh ▸ ht)
      obtain ⟨p, hp, hpx⟩ := List.mem_map.mp hmem
      obtain ⟨c', hc⟩ := (getIdx_cat_union s hWF t htne sub0 p).mp hp
      refine ⟨c', ?_⟩
      rw [mem_ids_queryDocuments]
      exact ⟨t, ht, hag, List.mem_map.mpr ⟨p, hc, hpx⟩⟩
    · rintro ⟨c', hc⟩
      rw [mem_ids_queryDocuments] at hc
      obtain ⟨t, ht, hag, hmem⟩ := hc
      have htne : t ≠ [] := fun hh => hq (hh ▸ ht)
      obtain ⟨p, hp, hpx⟩ := List.mem_map.mp hmem
      exact ⟨t, ht, hag, List.mem_map.mpr
        ⟨p, (getIdx_cat_union s hWF t htne sub0 p).mpr ⟨c', hp⟩, hpx⟩⟩

/-- Claim C5 counterexample: a query containing the empty-string token on
    an index storing the empty term returns a document that no single
    category filter returns, so the unfiltered result is not the union over
    the stored categories. -/
theorem empty_term_breaks_category_union :
    (3 ∈ ((queryDocuments sC5 (some (wd "dog  x")) none none).2.map Prod.fst)) ∧
    ¬ (3 ∈ ((queryDocuments sC5 (some (wd "dog  x")) (some 0) none).2.map Prod.fst)) ∧
    ¬ (3 ∈ ((queryDocuments sC5 (some (wd "dog  x")) (some 1) none).2.map Prod.fst)) ∧
    ¬ (3 ∈ ((queryDocuments sC5 (some (wd "dog  x")) (some 2) none).2.map Prod.fst)) ∧
    (∀ te ∈ sC5.invertedTermDocIndex, ∀ ce ∈ te.2, ce.1 ≤ 2) := by
  simp only [mem_ids_queryDocuments]
  refine ⟨?_, ?_, ?_, ?_, ?_⟩ <;> decide

theorem queryDocuments_filter_scoping_witness :
    WFIndex sC5w ∧
    ((2 ∈ ((queryDocuments sC5w (some (wd "dog")) (some 1) (some 0)).2.map Prod.fst) →
      ∃ t tf, (2, tf) ∈ idxLookup sC5w.invertedTermDocIndex t 1 0) ∧
    ((2 ∈ ((queryDocuments sC5w (some (wd "dog")) (some 1) none).2.map Prod.fst)) ↔
      ∃ sc', 2 ∈ ((queryDocuments sC5w (some (wd "dog")) (some 1) (some sc')).2.map Prod.fst)) ∧
    ([] ∉ (tokeniseQuery (wd "dog") true).2.map Prod.fst →
      ((2 ∈ ((queryDocuments sC5w (some (wd "dog")) none none).2.map Prod.fst)) ↔
        ∃ c', 2 ∈ ((queryDocuments sC5w (some (wd "dog")) (some c') none).2.map Prod.fst)))) :=
  ⟨by decide, queryDocuments_filter_scoping sC5w (wd "dog") 1 0 none 2 (by decide)⟩
